import Mathlib

/-!
Verification of the core-rs chain engine against its natural-language
specification.  Each section shallowly embeds one part of the Rust source
(`src/...`) as executable Lean definitions and proves the specification
claims about it.  Machine integers are modelled as `Nat` (all arithmetic
involved is bounds-checked in the source: `checked_sub` is modelled with
`Option`/explicit branches, and a Rust panic is modelled as `Option.none`).
-/

set_option maxHeartbeats 1000000

/-! # Connection pool (`src/src/network/connection/connection_pool.rs`)

`SparseVec`, the ban logic of `on_close`/`ban_ip`, `check_handshake`, and the
pre-handshake inbound counter update of `on_close`. -/

namespace Pool

/-- Embedding of `SparseVec<T>`: `inner: Vec<Option<T>>` and
`free_indices: LinkedList<usize>` (FIFO: `push_back`/`pop_front`). -/
structure SparseVec (T : Type) where
  inner : List (Option T)
  freeIndices : List Nat
  deriving DecidableEq

/-- `SparseVec::new()`. -/
def SparseVec.new (T : Type) : SparseVec T := ⟨[], []⟩

/-- `SparseVec::get`: `self.inner.get(index)?.as_ref()` — `none` when the index
is out of range or the slot is vacant. -/
def SparseVec.get (v : SparseVec T) (i : Nat) : Option T :=
  v.inner[i]?.bind id

/-- `SparseVec::remove`: pushes `index` onto `free_indices` unconditionally
(the source does so before the `?`), then takes the slot's value out. -/
def SparseVec.remove (v : SparseVec T) (i : Nat) : Option T × SparseVec T :=
  match v.inner[i]? with
  | none => (none, ⟨v.inner, v.freeIndices ++ [i]⟩)
  | some slot => (slot, ⟨v.inner.set i none, v.freeIndices ++ [i]⟩)

/-- `SparseVec::insert`.  On a reused free index the source calls
`self.inner.get_mut(index).unwrap().get_or_insert(value)`: the `unwrap`
panics (`none` here) for an out-of-range index, and `get_or_insert` keeps an
already-present value, so the slot becomes `some (slot.getD value)`. -/
def SparseVec.insert (v : SparseVec T) (x : T) : Option (Nat × SparseVec T) :=
  match v.freeIndices with
  | i :: rest =>
    match v.inner[i]? with
    | none => none
    | some slot => some (i, ⟨v.inner.set i (some (slot.getD x)), rest⟩)
  | [] => some (v.inner.length, ⟨v.inner ++ [some x], []⟩)

/-- The states reachable when `remove` has only ever been called on occupied
indices: every free index denotes an in-range, vacant slot, and no index is
free twice. -/
def SparseVec.WF (v : SparseVec T) : Prop :=
  v.freeIndices.Nodup ∧ ∀ i ∈ v.freeIndices, v.inner[i]? = some none

end Pool

/-- C10: for every `SparseVec` in which `remove` has only ever been called on
occupied indices (captured by the reachable-state invariant `SparseVec.WF`),
`insert v x` succeeds and returns an index `k` with `get k = some x`,
`remove` at an occupied index returns the stored value and leaves the slot
vacant, and both operations leave every other index unchanged; the invariant
is preserved, so IDs are stable. -/
theorem sparseVec_stable_ids {T : Type} (v : Pool.SparseVec T) (x : T) (i : Nat) (y : T)
    (hwf : v.WF) :
    (∃ k v', v.insert x = some (k, v') ∧ v'.get k = some x ∧
      (∀ j, j ≠ k → v'.get j = v.get j) ∧ v'.WF) ∧
    (v.get i = some y →
      ∃ v', v.remove i = (some y, v') ∧ v'.get i = none ∧
        (∀ j, j ≠ i → v'.get j = v.get j) ∧ v'.WF) := by
  obtain ⟨hnd, hfree⟩ := hwf
  constructor
  · -- insert
    match hv : v.freeIndices with
    | k :: rest =>
      have hk : v.inner[k]? = some none := hfree k (by simp [hv])
      have hklt : k < v.inner.length := by
        by_contra hge
        rw [List.getElem?_eq_none (by omega)] at hk
        exact Option.noConfusion hk
      refine ⟨k, ⟨v.inner.set k (some x), rest⟩, ?_, ?_, ?_, ?_, ?_⟩
      · simp [Pool.SparseVec.insert, hv, hk]
      · simp [Pool.SparseVec.get, List.getElem?_set_self hklt]
      · intro j hj
        simp [Pool.SparseVec.get, List.getElem?_set_ne (Ne.symm hj)]
      · rw [hv] at hnd; exact hnd.of_cons
      · intro j hj
        have hjk : k ≠ j := by
          rw [hv] at hnd; intro heq; subst heq; exact (List.nodup_cons.mp hnd).1 hj
        simp only [List.getElem?_set_ne hjk]
        exact hfree j (by simp [hv, hj])
    | [] =>
      refine ⟨v.inner.length, ⟨v.inner ++ [some x], []⟩, ?_, ?_, ?_, ?_, ?_⟩
      · simp [Pool.SparseVec.insert, hv]
      · simp [Pool.SparseVec.get]
      · intro j hj
        simp only [Pool.SparseVec.get]
        rcases Nat.lt_or_ge j v.inner.length with hlt | hge
        · rw [List.getElem?_append_left hlt]
        · rw [List.getElem?_eq_none (l := v.inner) (by omega),
            List.getElem?_eq_none (by simp; omega)]
      · exact List.nodup_nil
      · intro j hj; exact absurd hj (List.not_mem_nil j)
  · -- remove at an occupied index
    intro hocc
    have hslot : v.inner[i]? = some (some y) := by
      simp only [Pool.SparseVec.get] at hocc
      match hg : v.inner[i]? with
      | none => rw [hg] at hocc; exact Option.noConfusion hocc
      | some s =>
        rw [hg] at hocc; simp at hocc; rw [hocc]
    have hilt : i < v.inner.length := by
      by_contra hge
      rw [List.getElem?_eq_none (by omega)] at hslot
      exact Option.noConfusion hslot
    have hni : i ∉ v.freeIndices := by
      intro hmem
      have := hfree i hmem
      rw [hslot] at this
      simp at this
    refine ⟨⟨v.inner.set i none, v.freeIndices ++ [i]⟩, ?_, ?_, ?_, ?_, ?_⟩
    · simp [Pool.SparseVec.remove, hslot]
    · simp [Pool.SparseVec.get, List.getElem?_set_self hilt]
    · intro j hj
      simp [Pool.SparseVec.get, List.getElem?_set_ne (Ne.symm hj)]
    · simp [List.nodup_append, hnd, hni]
    · intro j hj
      simp only [List.mem_append, List.mem_singleton] at hj
      rcases hj with hj | hj
      · have hij : i ≠ j := fun heq => hni (heq ▸ hj)
        rw [List.getElem?_set_ne hij]
        exact hfree j hj
      · subst hj
        exact List.getElem?_set_self hilt

/-- Witness for C10 at a concrete state: `⟨[some 5, none], [1]⟩` is a
reachable well-formed state holding value 5 at index 0 -/
theorem sparseVec_stable_ids_witness :
    (∃ k v', (Pool.SparseVec.insert ⟨[some 5, none], [1]⟩ 7) = some (k, v') ∧
      v'.get k = some 7 ∧
      (∀ j, j ≠ k → v'.get j = Pool.SparseVec.get ⟨[some 5, none], [1]⟩ j) ∧ v'.WF) ∧
    (Pool.SparseVec.get ⟨[some 5, none], [1]⟩ 0 = some 5 →
      ∃ v', (Pool.SparseVec.remove ⟨[some 5, none], [1]⟩ 0) = (some 5, v') ∧
        v'.get 0 = none ∧
        (∀ j, j ≠ 0 → v'.get j = Pool.SparseVec.get ⟨[some 5, none], [1]⟩ j) ∧ v'.WF) :=
  sparseVec_stable_ids (T := Nat) ⟨[some 5, none], [1]⟩ 7 0 5
    (by constructor
        · decide
        · intro i hi
          simp only [List.mem_singleton] at hi
          subst hi; rfl)

namespace Pool

/-- Connection states (`ConnectionState`, modelled from the spec's state
machine `Connecting → Negotiating → Established → Closed`; the enum itself
lives in `connection_info.rs`, which is outside `src/`). -/
inductive ConnectionState where
  | new
  | connecting
  | connected
  | negotiating
  | established
  | closed
  deriving DecidableEq

/-- Peer protocols (`Protocol`). -/
inductive Protocol where
  | ws
  | wss
  | rtc
  | dumb
  deriving DecidableEq

/-- `ConnectionPool::DEFAULT_BAN_TIME`: the source declares
`const DEFAULT_BAN_TIME: u64 = 1000 * 60 * 10; // seconds` and later uses it
as the seconds argument of `Duration::new`. -/
def DEFAULT_BAN_TIME : Nat := 1000 * 60 * 10

/-- A network address: IPv4 or IPv6 flag plus the address bits
(modelled from the spec; `NetAddress` lives outside `src/`). -/
structure NetAddr where
  isV4 : Bool
  addr : Nat
  deriving DecidableEq

/-- `Modelled from the spec:` the `/64` subnet of an IPv6 address
(`net_address.subnet(64)` — `NetAddress::subnet` is outside `src/`):
keep the upper 64 bits of the 128-bit address, zero the rest. -/
def NetAddr.subnet64 (a : NetAddr) : NetAddr :=
  ⟨a.isV4, a.addr / 2 ^ 64 * 2 ^ 64⟩

/-- The address actually inserted by `ConnectionPool::ban_ip`: the IP itself
for IPv4, its `/64` subnet for IPv6. -/
def banTarget (a : NetAddr) : NetAddr :=
  if a.isV4 then a else a.subnet64

/-- `ConnectionPool::ban_ip` on a reliable address inserts
`(banTarget, now + DEFAULT_BAN_TIME)` into `banned_ips`
(`SystemTime::now() + Duration::new(DEFAULT_BAN_TIME, 0)`, i.e.
`DEFAULT_BAN_TIME` seconds from now); the map is modelled as a function. -/
def banIp (now : Nat) (a : NetAddr) (reliable : Bool)
    (banned : NetAddr → Option Nat) : NetAddr → Option Nat :=
  if reliable then
    fun k => if k = banTarget a then some (now + DEFAULT_BAN_TIME) else banned k
  else banned

/-- The `banned_ips` update performed by `ConnectionPool::on_close`: only a
connection whose state is `Established` and whose close type is banning bans
the peer's address. -/
def onCloseBan (state : ConnectionState) (banning reliable : Bool) (now : Nat)
    (a : NetAddr) (banned : NetAddr → Option Nat) : NetAddr → Option Nat :=
  if state = .established ∧ banning then banIp now a reliable banned else banned

/-- `ConnectionPool::check_handshake`, reduced to the data it consults:
the stored connection (id and state) indexed under the peer's address, the
peer's protocol, and the dumb peer count versus its limit.  Returns the
`bool` result together with the resulting state of this connection.  On the
success path the source sets the connection to `Negotiating` and then
executes `return false;`. -/
def checkHandshake (connectionId : Nat) (stored : Option (Nat × ConnectionState))
    (protocol : Protocol) (peerCountDumb dumbMax : Nat)
    (st : ConnectionState) : Bool × ConnectionState :=
  match stored with
  | some (sid, sst) =>
    if sid ≠ connectionId ∧ sst = .established then (false, st)
    else if protocol = .dumb ∧ dumbMax ≤ peerCountDumb then (false, st)
    else (false, .negotiating)
  | none =>
    if protocol = .dumb ∧ dumbMax ≤ peerCountDumb then (false, st)
    else (false, .negotiating)

/-- Rust's `u64::checked_sub`. -/
def checkedSub (a b : Nat) : Option Nat :=
  if b ≤ a then some (a - b) else none

/-- The `inbound_count` update performed by `ConnectionPool::on_close` for a
connection that is not `Established`.  For an inbound connection the source
evaluates `self.inbound_count.checked_sub(1).expect("inbound_count < 0")`
and discards the result: the panic (`none`) still happens at 0, but the
stored counter is never changed. -/
def onCloseInboundCount (state : ConnectionState) (inbound : Bool)
    (inboundCount : Nat) : Option Nat :=
  if state = .established then some inboundCount
  else if inbound then
    match checkedSub inboundCount 1 with
    | none => none
    | some _ => some inboundCount
  else some inboundCount

end Pool

/-- C7 (code bug): when an `Established` connection with a reliable IPv4
address is closed with a banning close type, `on_close` does insert the IP
into `banned_ips`, but with `unban_time = now + 600000` seconds (the constant
`1000 * 60 * 10` — ten minutes in *milliseconds* — is passed to
`Duration::new`, which takes seconds), not the ten minutes (600 seconds) the
claim states. -/
theorem onCloseBan_ipv4_bantime :
    (Pool.onCloseBan .established true true 0 ⟨true, 5⟩ (fun _ => none)) ⟨true, 5⟩ =
      some Pool.DEFAULT_BAN_TIME ∧
    Pool.DEFAULT_BAN_TIME = 600000 ∧ Pool.DEFAULT_BAN_TIME ≠ 10 * 60 := by
  refine ⟨?_, by decide, by decide⟩
  rfl

/-- C8 (code bug): on a handshake that passes every check (no stored
`Established` duplicate, dumb limit not reached) `check_handshake` does
transition the connection to `Negotiating`, but then returns `false`, not
`true` as the claim states. -/
theorem checkHandshake_success_returns_false :
    Pool.checkHandshake 0 none .ws 0 4 .connected = (false, .negotiating) ∧
    Pool.checkHandshake 3 (some (7, .negotiating)) .wss 2 4 .connected =
      (false, .negotiating) := by
  exact ⟨rfl, rfl⟩

/-- C9 (code bug): closing a pre-handshake inbound connection with
`inbound_count = 1` leaves the counter at 1: the source computes
`inbound_count.checked_sub(1)` but never assigns the result, so the
decrement the claim requires does not happen. -/
theorem onCloseInboundCount_not_decremented :
    Pool.onCloseInboundCount .connected true 1 = some 1 ∧ (1 : Nat) ≠ 0 := by
  exact ⟨rfl, by decide⟩

/-! # Blockchain engine: the extend path (`src/blockchain/src/blockchain.rs`)

`Blockchain::extend` is embedded as a pure state transformer.  The collaborating
components that live outside `src/` are abstracted by an environment:
`TransactionCache::contains_any`/`push_block` (spec section 3),
`Accounts::commit_block` (spec section 4.1) and the `ChainStore` writes
(spec section 4.2).  A `WriteTransaction` is a value that is finally either
aborted or committed; the in-memory `BlockchainState` is the record the source
mutates under its write lock. -/

namespace Chain

/-- `PushError` (the variants the extend path can produce). -/
inductive PushErrorM (AccErr : Type) where
  | duplicateTransaction
  | accountsError (e : AccErr)
  deriving DecidableEq

/-- `PushResult` (the variants the extend path can produce). -/
inductive PushResultM (AccErr : Type) where
  | invalid (e : PushErrorM AccErr)
  | extended
  deriving DecidableEq

/-- `ChainInfo`, restricted to the fields the extend path reads or writes. -/
structure ChainInfoM (Block Hash : Type) where
  head : Block
  onMainChain : Bool
  mainChainSuccessor : Option Hash
  deriving DecidableEq

/-- The in-memory `BlockchainState` fields mutated by `extend` (the accounts
tree itself lives behind the KV transaction). -/
structure BcState (Cache Block Hash : Type) where
  transactionCache : Cache
  mainChain : ChainInfoM Block Hash
  headHash : Hash
  chainProof : Option Unit
  deriving DecidableEq

/-- Outcome of the `WriteTransaction`: aborted, or committed with the final
set of writes. -/
inductive TxnOutcome (KV : Type) where
  | aborted
  | committed (kv : KV)
  deriving DecidableEq

/-- `Modelled from the spec:` the collaborators of `Blockchain::extend` whose
code is outside `src/` — `TransactionCache` (contains_any/push_block),
`Accounts::commit_block`, and the `ChainStore` write operations — abstracted
to their contracts. -/
structure ExtendEnv (Cache Block Hash KV AccErr : Type) where
  containsAny : Cache → Block → Bool
  pushBlock : Cache → Block → Cache
  commitBlock : KV → Block → Except AccErr KV
  putChainInfo : KV → Hash → ChainInfoM Block Hash → Bool → KV
  setHead : KV → Hash → KV
  prevHashOf : Block → Hash

/-- `Blockchain::extend` (blockchain.rs lines 246–299), as a pure function of
the in-memory state and the fresh write transaction.  Returns the
`PushResult`, the resulting in-memory state, and the transaction outcome.
The source's lock discipline (read lock for validation, write lock for the
in-memory swap with `txn.commit()` inside it) is sequential here; what is
retained is the order: every validation and the accounts commit happen
before any in-memory mutation, and the in-memory mutation accompanies the
KV commit. -/
def extend {Cache Block Hash KV AccErr : Type}
    (env : ExtendEnv Cache Block Hash KV AccErr)
    (st : BcState Cache Block Hash) (kv : KV) (blockHash : Hash)
    (chainInfo prevInfo : ChainInfoM Block Hash) :
    PushResultM AccErr × BcState Cache Block Hash × TxnOutcome KV :=
  if env.containsAny st.transactionCache chainInfo.head then
    (.invalid .duplicateTransaction, st, .aborted)
  else
    match env.commitBlock kv chainInfo.head with
    | .error e => (.invalid (.accountsError e), st, .aborted)
    | .ok kv1 =>
      let chainInfo2 : ChainInfoM Block Hash := { chainInfo with onMainChain := true }
      let prevInfo2 : ChainInfoM Block Hash :=
        { prevInfo with mainChainSuccessor := some blockHash }
      let kv2 := env.putChainInfo kv1 blockHash chainInfo2 true
      let kv3 := env.putChainInfo kv2 (env.prevHashOf chainInfo.head) prevInfo2 false
      let kv4 := env.setHead kv3 blockHash
      (.extended,
       { transactionCache := env.pushBlock st.transactionCache chainInfo2.head,
         mainChain := chainInfo2, headHash := blockHash, chainProof := none },
       .committed kv4)

end Chain

/-- C2: on the extend path, if the transaction cache already contains a
transaction of the block then `extend` returns
`Invalid(DuplicateTransaction)`, the write transaction is aborted and the
in-memory `BlockchainState` is returned unchanged; and in general the
in-memory state is only ever changed when every validation and the accounts
commit succeeded, in which case the result is `Extended` and the state
change accompanies the KV commit (the source performs the two inside one
write-lock critical section). -/
theorem extend_state_discipline {Cache Block Hash KV AccErr : Type}
    (env : Chain.ExtendEnv Cache Block Hash KV AccErr)
    (st : Chain.BcState Cache Block Hash) (kv : KV) (blockHash : Hash)
    (chainInfo prevInfo : Chain.ChainInfoM Block Hash) :
    (env.containsAny st.transactionCache chainInfo.head = true →
      Chain.extend env st kv blockHash chainInfo prevInfo =
        (.invalid .duplicateTransaction, st, .aborted)) ∧
    ((Chain.extend env st kv blockHash chainInfo prevInfo).2.1 ≠ st →
      env.containsAny st.transactionCache chainInfo.head = false ∧
      (∃ kv1, env.commitBlock kv chainInfo.head = .ok kv1) ∧
      (Chain.extend env st kv blockHash chainInfo prevInfo).1 = .extended ∧
      ∃ kvFinal, (Chain.extend env st kv blockHash chainInfo prevInfo).2.2 =
        .committed kvFinal) := by
  constructor
  · intro hdup
    simp [Chain.extend, hdup]
  · intro hchanged
    by_cases hdup : env.containsAny st.transactionCache chainInfo.head
    · exfalso; apply hchanged; simp [Chain.extend, hdup]
    · refine ⟨by simpa using hdup, ?_⟩
      match hc : env.commitBlock kv chainInfo.head with
      | .error e => exfalso; apply hchanged; simp [Chain.extend, hdup, hc]
      | .ok kv1 =>
        exact ⟨⟨kv1, rfl⟩, by simp [Chain.extend, hdup, hc], by simp [Chain.extend, hdup, hc]⟩

/-- A concrete environment for exercising `Chain.extend`: every cache claims
to contain every block's transactions. -/
def demoExtendEnvDup : Chain.ExtendEnv Nat Nat Nat Nat Nat :=
  ⟨fun _ _ => true, fun c _ => c + 1, fun kv _ => .ok kv,
   fun kv _ _ _ => kv, fun kv _ => kv, fun _ => 0⟩

/-- Witness for C2 at a concrete instantiation (all component types `Nat`,
a cache that contains the block's transactions). -/
theorem extend_state_discipline_witness :
    (demoExtendEnvDup.containsAny 0 0 = true →
      Chain.extend demoExtendEnvDup ⟨0, ⟨0, false, none⟩, 0, some ()⟩ 0 1
          ⟨0, false, none⟩ ⟨0, true, none⟩ =
        (.invalid .duplicateTransaction, ⟨0, ⟨0, false, none⟩, 0, some ()⟩, .aborted)) ∧
    ((Chain.extend demoExtendEnvDup ⟨0, ⟨0, false, none⟩, 0, some ()⟩ 0 1
          ⟨0, false, none⟩ ⟨0, true, none⟩).2.1 ≠ ⟨0, ⟨0, false, none⟩, 0, some ()⟩ →
      demoExtendEnvDup.containsAny 0 0 = false ∧
      (∃ kv1, demoExtendEnvDup.commitBlock 0 0 = .ok kv1) ∧
      (Chain.extend demoExtendEnvDup ⟨0, ⟨0, false, none⟩, 0, some ()⟩ 0 1
          ⟨0, false, none⟩ ⟨0, true, none⟩).1 = .extended ∧
      ∃ kvFinal, (Chain.extend demoExtendEnvDup ⟨0, ⟨0, false, none⟩, 0, some ()⟩ 0 1
          ⟨0, false, none⟩ ⟨0, true, none⟩).2.2 = .committed kvFinal) :=
  extend_state_discipline demoExtendEnvDup
    ⟨0, ⟨0, false, none⟩, 0, some ()⟩ 0 1 ⟨0, false, none⟩ ⟨0, true, none⟩

/-! # Block locators (`Blockchain::get_block_locators`, blockchain.rs 540–588)

The chain store is modelled by a canonical well-formed main chain of height
`h`: the block at height `i` (for `1 ≤ i ≤ h`) has hash `i` and previous hash
`i - 1`; the genesis block sits at height 1 (hash 1) and its `prev_hash` is
the hash `0`, which references no block.  `get_block`/`get_block_at` are the
`ChainStore` lookups restricted to this chain.  The exponential back-off loop
is written with an explicit fuel argument; the source loop strictly decreases
`height` on every iteration, so any fuel `≥ height` (we pass `h`) makes the
model coincide with it. -/

namespace Loc

/-- `ChainStore::get_block` on the canonical chain: for a known hash, the
pair (previous hash, height). -/
def getBlock (h x : Nat) : Option (Nat × Nat) :=
  if 1 ≤ x ∧ x ≤ h then some (x - 1, x) else none

/-- `ChainStore::get_block_at`: hash of the main-chain block at a height. -/
def getBlockAt (h ht : Nat) : Option Nat :=
  if 1 ≤ ht ∧ ht ≤ h then some ht else none

/-- The height of the block referenced by a hash, if any. -/
def refHeight (h x : Nat) : Option Nat :=
  (getBlock h x).map Prod.snd

/-- The first phase of `get_block_locators`: `for _ in 0..min(10, height)`,
look the current hash up, step to its `prev_hash` and push that (breaking
when the lookup fails). -/
def tenWalk (h : Nat) : Nat → Nat → List Nat
  | 0, _ => []
  | c + 1, x =>
    match getBlock h x with
    | none => []
    | some b => b.1 :: tenWalk h c b.1

/-- The exponential back-off phase: look up the block at `height`, push its
hash, stop once `max_count` is reached, then double `step` and move `height`
down by it (`checked_sub`, breaking on 0 or underflow). -/
def expGo (h maxCount : Nat) : Nat → Nat → Nat → List Nat → List Nat
  | fuel, step, height, locs =>
    match getBlockAt h height with
    | none => locs
    | some hsh =>
      if maxCount ≤ (locs ++ [hsh]).length then locs ++ [hsh]
      else
        match fuel with
        | 0 => locs ++ [hsh]
        | fuel' + 1 =>
          match Pool.checkedSub height (2 * step) with
          | none => locs ++ [hsh]
          | some 0 => locs ++ [hsh]
          | some (v + 1) => expGo h maxCount fuel' (2 * step) (v + 1) (locs ++ [hsh])

/-- The final phase: if the list is empty or does not already end in the
genesis hash, pop the last element when `max_count` is already reached, and
push the genesis hash. -/
def genesisPhase (maxCount : Nat) (locs : List Nat) : List Nat :=
  if locs = [] ∨ ¬(locs.getLast? = some 1) then
    if maxCount ≤ locs.length then locs.dropLast ++ [1] else locs ++ [1]
  else locs

/-- `Blockchain::get_block_locators(max_count)` on the canonical chain of
height `h`: head hash, ten-predecessor walk, exponential back-off starting
at `height().saturating_sub(10 + 2)` with initial step 2, genesis fix-up. -/
def getBlockLocators (h maxCount : Nat) : List Nat :=
  genesisPhase maxCount
    (expGo h maxCount h 2 (h - (10 + 2)) (h :: tenWalk h (min 10 h) h))

end Loc

/-- C5 counterexample: on the chain consisting only of the genesis block,
`get_block_locators(1)` returns `[genesis, genesis]` — two hashes, violating
the claimed bound `length ≤ max_count = 1` (the first phase pushes hashes
before any `max_count` check). -/
theorem getBlockLocators_exceeds_max_count :
    Loc.getBlockLocators 1 1 = [1, 1] ∧ ¬((Loc.getBlockLocators 1 1).length ≤ 1) := by
  decide

namespace Loc

theorem refHeight_eq_some {h a y : Nat} :
    refHeight h a = some y ↔ a = y ∧ 1 ≤ a ∧ a ≤ h := by
  unfold refHeight getBlock
  by_cases hc : 1 ≤ a ∧ a ≤ h
  · simp [hc]
  · simp [hc]

theorem filterMap_refHeight_of_bounds {h : Nat} {S : List Nat}
    (hb : ∀ y ∈ S, 1 ≤ y ∧ y ≤ h) : S.filterMap (refHeight h) = S := by
  induction S with
  | nil => rfl
  | cons a t ih =>
    have ha := hb a (by simp)
    have hfa : refHeight h a = some a := refHeight_eq_some.mpr ⟨rfl, ha⟩
    simp only [List.filterMap_cons, hfa]
    rw [ih (fun y hy => hb y (by simp [hy]))]

theorem mem_filterMap_refHeight {h y : Nat} {l : List Nat} :
    y ∈ l.filterMap (refHeight h) ↔ y ∈ l ∧ 1 ≤ y ∧ y ≤ h := by
  rw [List.mem_filterMap]
  constructor
  · rintro ⟨a, ha, hfa⟩
    obtain ⟨rfl, hb⟩ := refHeight_eq_some.mp hfa
    exact ⟨ha, hb⟩
  · rintro ⟨hy, hb⟩
    exact ⟨y, hy, refHeight_eq_some.mpr ⟨rfl, hb⟩⟩

theorem chain'_gt_sublist {l1 l2 : List Nat} (hs : l1.Sublist l2)
    (hc : List.Chain' (fun a b => b < a) l2) : List.Chain' (fun a b => b < a) l1 := by
  haveI : IsTrans Nat (fun a b => b < a) := ⟨fun a b c h1 h2 => lt_trans h2 h1⟩
  exact hc.sublist hs

theorem tenWalk_eq (h : Nat) :
    ∀ c x, c ≤ x → x ≤ h → tenWalk h c x = (List.range c).map (fun i => x - 1 - i) := by
  intro c
  induction c with
  | zero => intro x _ _; rfl
  | succ c ih =>
    intro x hc hx
    have h1 : 1 ≤ x := by omega
    have hg : getBlock h x = some (x - 1, x) := by simp [getBlock, h1, hx]
    simp only [tenWalk, hg]
    rw [ih (x - 1) (by omega) (by omega), List.range_succ_eq_map, List.map_cons,
      List.map_map]
    have hfun : ((fun i => x - 1 - i) ∘ Nat.succ) = (fun i => x - 1 - 1 - i) := by
      funext i
      simp only [Function.comp_apply]
      omega
    rw [hfun]
    simp

theorem chain'_desc :
    ∀ c x, c ≤ x →
      List.Chain' (fun a b => b < a) (x :: (List.range c).map (fun i => x - 1 - i)) := by
  intro c
  induction c with
  | zero => intro x _; simp
  | succ c ih =>
    intro x hc
    rw [List.range_succ_eq_map, List.map_cons, List.map_map]
    have hrw : ((fun i => x - 1 - i) ∘ Nat.succ) = (fun i => x - 1 - 1 - i) := by
      funext i; simp only [Function.comp]; omega
    rw [hrw]
    refine List.Chain'.cons ?_ (ih (x - 1) (by omega))
    omega

theorem expGo_spec (h n : Nat) :
    ∀ fuel step height locs, 1 ≤ step →
      ∃ S, expGo h n fuel step height locs = locs ++ S ∧
        (∀ y ∈ S, 1 ≤ y ∧ y ≤ h ∧ y ≤ height) ∧
        List.Chain' (fun a b => b < a) S ∧
        (locs ++ S).length ≤ max n (locs.length + 1) := by
  intro fuel
  induction fuel with
  | zero =>
    intro step height locs _
    cases hga : getBlockAt h height with
    | none =>
      refine ⟨[], by simp [expGo, hga], by simp, by simp, by simp⟩
    | some hsh =>
      have hb : 1 ≤ hsh ∧ hsh ≤ h ∧ hsh = height := by
        unfold getBlockAt at hga
        by_cases hc : 1 ≤ height ∧ height ≤ h
        · simp [hc] at hga; omega
        · simp [hc] at hga
      refine ⟨[hsh], ?_, ?_, by simp, by simp⟩
      · show expGo h n 0 step height locs = locs ++ [hsh]
        unfold expGo
        rw [hga]
        simp only []
        split <;> rfl
      · intro y hy
        simp only [List.mem_singleton] at hy
        subst hy; omega
  | succ fuel ih =>
    intro step height locs hstep
    cases hga : getBlockAt h height with
    | none =>
      refine ⟨[], by simp [expGo, hga], by simp, by simp, by simp⟩
    | some hsh =>
      have hb : 1 ≤ hsh ∧ hsh ≤ h ∧ hsh = height := by
        unfold getBlockAt at hga
        by_cases hc : 1 ≤ height ∧ height ≤ h
        · simp [hc] at hga; omega
        · simp [hc] at hga
      by_cases hmax : n ≤ (locs ++ [hsh]).length
      · refine ⟨[hsh], ?_, ?_, by simp, ?_⟩
        · show expGo h n (fuel + 1) step height locs = locs ++ [hsh]
          unfold expGo
          rw [hga]
          simp only [if_pos hmax]
        · intro y hy
          simp only [List.mem_singleton] at hy
          subst hy; omega
        · simp
      · have hlt : locs.length + 1 < n := by simp at hmax; omega
        cases hcs : Pool.checkedSub height (2 * step) with
        | none =>
          refine ⟨[hsh], ?_, ?_, by simp, by simp⟩
          · show expGo h n (fuel + 1) step height locs = locs ++ [hsh]
            unfold expGo
            rw [hga]
            simp only [if_neg hmax, hcs]
          · intro y hy
            simp only [List.mem_singleton] at hy
            subst hy; omega
        | some v =>
          have hv : 2 * step ≤ height ∧ v = height - 2 * step := by
            unfold Pool.checkedSub at hcs
            by_cases hc : 2 * step ≤ height
            · simp [hc] at hcs; omega
            · simp [hc] at hcs
          cases v with
          | zero =>
            refine ⟨[hsh], ?_, ?_, by simp, by simp⟩
            · show expGo h n (fuel + 1) step height locs = locs ++ [hsh]
              unfold expGo
              rw [hga]
              simp only [if_neg hmax, hcs]
            · intro y hy
              simp only [List.mem_singleton] at hy
              subst hy; omega
          | succ v' =>
            obtain ⟨S', heq, hbnd, hchain, hlen⟩ :=
              ih (2 * step) (v' + 1) (locs ++ [hsh]) (by omega)
            have hvlt : v' + 1 < height := by omega
            refine ⟨hsh :: S', ?_, ?_, ?_, ?_⟩
            · show expGo h n (fuel + 1) step height locs = locs ++ hsh :: S'
              unfold expGo
              rw [hga]
              simp only [if_neg hmax, hcs]
              rw [heq, List.append_assoc]
              rfl
            · intro y hy
              rcases List.mem_cons.mp hy with hy | hy
              · subst hy; omega
              · have := hbnd y hy
                omega
            · rw [List.chain'_cons']
              refine ⟨?_, hchain⟩
              intro y hy
              have hyS : y ∈ S' := List.mem_of_mem_head? hy
              have := hbnd y hyS
              omega
            · have h1 : (locs ++ hsh :: S').length = ((locs ++ [hsh]) ++ S').length := by
                simp
              rw [h1]
              have h2 : max n ((locs ++ [hsh]).length + 1) = n := by
                simp; omega
              rw [h2] at hlen
              omega

end Loc

namespace Loc

theorem filterMapRefHeight_sublist (h : Nat) (l : List Nat) :
    (l.filterMap (refHeight h)).Sublist l := by
  induction l with
  | nil => simp
  | cons a t ih =>
    rw [List.filterMap_cons]
    cases hfa : refHeight h a with
    | none => exact ih.cons a
    | some y =>
      obtain ⟨rfl, -⟩ := refHeight_eq_some.mp hfa
      exact ih.cons₂ a

end Loc

/-- C5 amended: `get_block_locators(n)` returns a sequence of at most
`max n (min 10 height + 2)` hashes (the head plus the ten-predecessor walk is
pushed before any `max_count` check, so `n` alone does not bound the result),
the referenced block heights are strictly decreasing along the sequence
except possibly at the final genesis entry, and the last element is always
the genesis hash. -/
theorem getBlockLocators_amended (h n : Nat) (hh : 1 ≤ h) :
    (Loc.getBlockLocators h n).length ≤ max n (min 10 h + 2) ∧
    (Loc.getBlockLocators h n).getLast? = some 1 ∧
    List.Chain' (fun a b => b < a)
      ((Loc.getBlockLocators h n).dropLast.filterMap (Loc.refHeight h)) := by
  have h10 : min 10 h ≤ 10 := min_le_left 10 h
  have hM : min 10 h ≤ h := min_le_right 10 h
  have twEq := Loc.tenWalk_eq h (min 10 h) h hM le_rfl
  obtain ⟨S, hE, hbnd, hchainS, hlenE⟩ :=
    Loc.expGo_spec h n h 2 (h - (10 + 2)) (h :: Loc.tenWalk h (min 10 h) h) (by omega)
  have hGB : Loc.getBlockLocators h n =
      Loc.genesisPhase n
        (Loc.expGo h n h 2 (h - (10 + 2)) (h :: Loc.tenWalk h (min 10 h) h)) := rfl
  set E := Loc.expGo h n h 2 (h - (10 + 2)) (h :: Loc.tenWalk h (min 10 h) h) with hEdef
  have hAlen : (h :: Loc.tenWalk h (min 10 h) h).length = min 10 h + 1 := by
    simp [twEq]
  have hElen : E.length = min 10 h + 1 + S.length := by
    rw [hE, List.length_append, hAlen]
  have hElenMax : E.length ≤ max n (min 10 h + 2) := by
    rw [hE]
    rw [hAlen] at hlenE
    omega
  have hchainA : List.Chain' (fun a b => b < a) (h :: Loc.tenWalk h (min 10 h) h) := by
    rw [twEq]
    exact Loc.chain'_desc (min 10 h) h hM
  have hmemA : ∀ y ∈ (h :: Loc.tenWalk h (min 10 h) h), h - 10 ≤ y ∧ y ≤ h := by
    intro y hy
    rw [twEq] at hy
    rcases List.mem_cons.mp hy with rfl | hy
    · omega
    · simp only [List.mem_map, List.mem_range] at hy
      obtain ⟨i, hi, rfl⟩ := hy
      omega
  have hfmE : E.filterMap (Loc.refHeight h) =
      ((h :: Loc.tenWalk h (min 10 h) h).filterMap (Loc.refHeight h)) ++ S := by
    rw [hE, List.filterMap_append,
      Loc.filterMap_refHeight_of_bounds (fun y hy => ⟨(hbnd y hy).1, (hbnd y hy).2.1⟩)]
  have hchainE : List.Chain' (fun a b => b < a) (E.filterMap (Loc.refHeight h)) := by
    rw [hfmE, List.chain'_append]
    refine ⟨Loc.chain'_gt_sublist (Loc.filterMapRefHeight_sublist h _) hchainA,
      hchainS, ?_⟩
    intro x hx y hy
    have hxA := Loc.mem_filterMap_refHeight.mp (List.mem_of_mem_getLast? hx)
    have hxb := hmemA x hxA.1
    have hyb := hbnd y (List.mem_of_mem_head? hy)
    omega
  have hEne : E ≠ [] := by
    rw [hE]
    simp
  have hEpos : 1 ≤ E.length := List.length_pos.mpr hEne
  rw [hGB]
  unfold Loc.genesisPhase
  by_cases hlast : E.getLast? = some 1
  · rw [if_neg (by simp [hlast, hEne])]
    refine ⟨hElenMax, hlast, ?_⟩
    exact Loc.chain'_gt_sublist ((List.dropLast_sublist E).filterMap (Loc.refHeight h))
      hchainE
  · rw [if_pos (by simp [hlast])]
    by_cases hcnt : n ≤ E.length
    · rw [if_pos hcnt]
      refine ⟨?_, List.getLast?_concat _, ?_⟩
      · rw [List.length_append, List.length_dropLast]
        simp only [List.length_singleton]
        omega
      · rw [List.dropLast_concat]
        exact Loc.chain'_gt_sublist
          ((List.dropLast_sublist E).filterMap (Loc.refHeight h)) hchainE
    · rw [if_neg hcnt]
      refine ⟨?_, List.getLast?_concat _, ?_⟩
      · rw [List.length_append]
        simp only [List.length_singleton]
        omega
      · rw [List.dropLast_concat]
        exact hchainE

/-- Witness for C5 (amended) on the canonical chain of height 5 with
`max_count = 30`. -/
theorem getBlockLocators_amended_witness :
    (Loc.getBlockLocators 5 30).length ≤ max 30 (min 10 5 + 2) ∧
    (Loc.getBlockLocators 5 30).getLast? = some 1 ∧
    List.Chain' (fun a b => b < a)
      ((Loc.getBlockLocators 5 30).dropLast.filterMap (Loc.refHeight 5)) :=
  getBlockLocators_amended 5 30 (by decide)

/-! # Rebranch event lists (`Blockchain::rebranch`, blockchain.rs 301–450)

Only the data relevant to claim C6 is modelled: the two backward walks that
collect `fork_chain` (new tip down to the child of the common ancestor) and
`revert_chain` (old head down to the child of the common ancestor), and the
construction of the `Rebranched(reverted_blocks, adopted_blocks)` event from
them by reversal.  The accounts/cache reverts and commits interleaved with
the walks do not touch these lists.  The chain store is a function
`Hash → Option ChainInfo`; a failing lookup (an `.expect` panic in the
source) is `none`.  The source loops terminate because each step moves to a
strictly older block; the model makes this explicit with a fuel argument
(fuel exhaustion yields `none`), and the theorems hold for every fuel at
least the walked path's length. -/

namespace Fork

/-- `ChainInfo` restricted to the fields the rebranch walks read. -/
structure ChainInfoW (B : Type) where
  head : B
  onMainChain : Bool
  deriving DecidableEq

/-- The fork-chain walk of `rebranch`: starting from the pushed block (hash
and `ChainInfo`), while the current block is not on the main chain, look up
its predecessor (`prev_hash`) and push the current entry; returns the
collected tip-to-child chain and the common ancestor. -/
def walkFork {H B : Type} (store : H → Option (ChainInfoW B)) (prev : B → H) :
    Nat → H × ChainInfoW B → Option (List (H × ChainInfoW B) × (H × ChainInfoW B))
  | 0, cur => if cur.2.onMainChain then some ([], cur) else none
  | fuel + 1, cur =>
    if cur.2.onMainChain then some ([], cur)
    else
      match store (prev cur.2.head) with
      | none => none
      | some pi =>
        (walkFork store prev fuel (prev cur.2.head, pi)).map
          (fun r => (cur :: r.1, r.2))

/-- The revert walk of `rebranch`: starting from the current head, while the
current hash differs from the ancestor's, look up the predecessor and push
the current entry; returns the collected old-head-to-child chain. -/
def walkRevert {H B : Type} [DecidableEq H] (store : H → Option (ChainInfoW B))
    (prev : B → H) :
    Nat → H → H × ChainInfoW B → Option (List (H × ChainInfoW B))
  | 0, ancHash, cur => if cur.1 = ancHash then some [] else none
  | fuel + 1, ancHash, cur =>
    if cur.1 = ancHash then some []
    else
      match store (prev cur.2.head) with
      | none => none
      | some pi =>
        (walkRevert store prev fuel ancHash (prev cur.2.head, pi)).map
          (fun r => cur :: r)

/-- The `Rebranched` event payload built at blockchain.rs 436–445: the revert
chain reversed (ancestor→tip) paired down to blocks, and the fork chain
reversed (ancestor→tip) paired down to blocks. -/
def rebranchEventLists {H B : Type} [DecidableEq H]
    (store : H → Option (ChainInfoW B)) (prev : B → H) (fuel : Nat)
    (blockHash : H) (ci : ChainInfoW B) (headHash : H) (headInfo : ChainInfoW B) :
    Option (List (H × B) × List (H × B)) :=
  match walkFork store prev fuel (blockHash, ci) with
  | none => none
  | some (forkChain, anc) =>
    match walkRevert store prev fuel anc.1 (headHash, headInfo) with
    | none => none
    | some revertChain =>
      some (revertChain.reverse.map (fun p => (p.1, p.2.head)),
            forkChain.reverse.map (fun p => (p.1, p.2.head)))

/-- A tip-to-child list is chained when each entry's block has the next
entry's hash (or, for the last entry, `anc`) as its `prev_hash`. -/
def ChainedTD {H B : Type} (prev : B → H) (anc : H) : List (H × ChainInfoW B) → Prop
  | [] => True
  | x :: rest => prev x.2.head = ((rest.head?.map Prod.fst).getD anc) ∧
      ChainedTD prev anc rest

theorem walkFork_main {H B : Type} (store : H → Option (ChainInfoW B)) (prev : B → H)
    (fuel : Nat) (cur : H × ChainInfoW B) (h : cur.2.onMainChain = true) :
    walkFork store prev fuel cur = some ([], cur) := by
  match fuel with
  | 0 => simp [walkFork, h]
  | fuel + 1 => simp [walkFork, h]

theorem walkRevert_stop {H B : Type} [DecidableEq H] (store : H → Option (ChainInfoW B))
    (prev : B → H) (fuel : Nat) (ancHash : H) (cur : H × ChainInfoW B)
    (h : cur.1 = ancHash) :
    walkRevert store prev fuel ancHash cur = some [] := by
  match fuel with
  | 0 => simp [walkRevert, h]
  | fuel + 1 => simp [walkRevert, h]

theorem walkFork_eq {H B : Type} (store : H → Option (ChainInfoW B)) (prev : B → H)
    (ancHash : H) (ancInfo : ChainInfoW B)
    (hanc : store ancHash = some ancInfo) (hancMain : ancInfo.onMainChain = true) :
    ∀ (td : List (H × ChainInfoW B)) (fuel : Nat) (x : H × ChainInfoW B),
      ChainedTD prev ancHash (x :: td) →
      (∀ z ∈ x :: td, z.2.onMainChain = false) →
      (∀ z ∈ td, store z.1 = some z.2) →
      td.length + 1 ≤ fuel →
      walkFork store prev fuel x = some (x :: td, (ancHash, ancInfo)) := by
  intro td
  induction td with
  | nil =>
    intro fuel x hch hoff hst hf
    obtain ⟨hprev, -⟩ := hch
    simp only [List.head?_nil, Option.map_none', Option.getD_none] at hprev
    match fuel with
    | fuel' + 1 =>
      have hx : x.2.onMainChain = false := hoff x (by simp)
      simp only [walkFork, hx, Bool.false_eq_true, if_false, hprev, hanc,
        walkFork_main store prev fuel' (ancHash, ancInfo) hancMain, Option.map_some']
  | cons y rest ih =>
    intro fuel x hch hoff hst hf
    obtain ⟨hprev, hch'⟩ := hch
    simp only [List.head?_cons, Option.map_some', Option.getD_some] at hprev
    match fuel with
    | fuel' + 1 =>
      have hx : x.2.onMainChain = false := hoff x (by simp)
      have hrec := ih fuel' y hch'
        (fun z hz => hoff z (by simp at hz ⊢; tauto))
        (fun z hz => hst z (by simp [hz]))
        (by simp at hf ⊢; omega)
      have hystore : store (prev x.2.head) = some y.2 := by
        rw [hprev]; exact hst y (by simp)
      have hyx : (prev x.2.head, y.2) = y := by
        rw [hprev]
      simp only [walkFork, hx, Bool.false_eq_true, if_false, hystore, hyx, hrec,
        Option.map_some']

end Fork

namespace Fork

theorem walkRevert_eq {H B : Type} [DecidableEq H] (store : H → Option (ChainInfoW B))
    (prev : B → H) (ancHash : H) (ancInfo : ChainInfoW B)
    (hanc : store ancHash = some ancInfo) :
    ∀ (td : List (H × ChainInfoW B)) (fuel : Nat) (x : H × ChainInfoW B),
      ChainedTD prev ancHash (x :: td) →
      (∀ z ∈ x :: td, z.1 ≠ ancHash) →
      (∀ z ∈ td, store z.1 = some z.2) →
      td.length + 1 ≤ fuel →
      walkRevert store prev fuel ancHash x = some (x :: td) := by
  intro td
  induction td with
  | nil =>
    intro fuel x hch hne hst hf
    obtain ⟨hprev, -⟩ := hch
    simp only [List.head?_nil, Option.map_none', Option.getD_none] at hprev
    match fuel with
    | fuel' + 1 =>
      simp only [walkRevert, if_neg (hne x (by simp)), hprev, hanc,
        walkRevert_stop store prev fuel' ancHash (ancHash, ancInfo) rfl,
        Option.map_some']
  | cons y rest ih =>
    intro fuel x hch hne hst hf
    obtain ⟨hprev, hch'⟩ := hch
    simp only [List.head?_cons, Option.map_some', Option.getD_some] at hprev
    match fuel with
    | fuel' + 1 =>
      have hrec := ih fuel' y hch'
        (fun z hz => hne z (by simp at hz ⊢; tauto))
        (fun z hz => hst z (by simp [hz]))
        (by simp at hf ⊢; omega)
      have hystore : store (prev x.2.head) = some y.2 := by
        rw [hprev]; exact hst y (by simp)
      have hyx : (prev x.2.head, y.2) = y := by
        rw [hprev]
      simp only [walkRevert, if_neg (hne x (by simp)), hystore, hyx, hrec,
        Option.map_some']

end Fork

/-- C6: when the rebranch walks succeed, the `Rebranched` event carries the
reverted old main-chain blocks (child of the common ancestor up to the old
head) and the adopted fork blocks (child of the common ancestor up to the
new tip), both in ancestor→tip order.  `adopted` and `reverted` are the two
paths given in ancestor→tip order; the event lists equal exactly these paths
projected to (hash, block) pairs. -/
theorem rebranch_event_order {H B : Type} [DecidableEq H]
    (store : H → Option (Fork.ChainInfoW B)) (prev : B → H)
    (ancHash : H) (ancInfo : Fork.ChainInfoW B)
    (adopted reverted : List (H × Fork.ChainInfoW B)) (fuel : Nat)
    (tip hd : H × Fork.ChainInfoW B)
    (hanc : store ancHash = some ancInfo) (hancMain : ancInfo.onMainChain = true)
    (htip : adopted.getLast? = some tip) (hhd : reverted.getLast? = some hd)
    (hchA : Fork.ChainedTD prev ancHash adopted.reverse)
    (hoffA : ∀ z ∈ adopted, z.2.onMainChain = false)
    (hstA : ∀ z ∈ adopted.reverse.tail, store z.1 = some z.2)
    (hchR : Fork.ChainedTD prev ancHash reverted.reverse)
    (hneR : ∀ z ∈ reverted, z.1 ≠ ancHash)
    (hstR : ∀ z ∈ reverted.reverse.tail, store z.1 = some z.2)
    (hfA : adopted.length ≤ fuel) (hfR : reverted.length ≤ fuel) :
    Fork.rebranchEventLists store prev fuel tip.1 tip.2 hd.1 hd.2 =
      some (reverted.map (fun p => (p.1, p.2.head)),
            adopted.map (fun p => (p.1, p.2.head))) := by
  have hadec : adopted.reverse = tip :: adopted.dropLast.reverse := by
    conv_lhs => rw [← List.dropLast_append_getLast? tip htip]
    rw [List.reverse_append]
    rfl
  have hrdec : reverted.reverse = hd :: reverted.dropLast.reverse := by
    conv_lhs => rw [← List.dropLast_append_getLast? hd hhd]
    rw [List.reverse_append]
    rfl
  have hwf := Fork.walkFork_eq store prev ancHash ancInfo hanc hancMain
    adopted.dropLast.reverse fuel tip
    (by rw [← hadec]; exact hchA)
    (by
      intro z hz
      rw [← hadec] at hz
      exact hoffA z (List.mem_reverse.mp hz))
    (by
      intro z hz
      apply hstA
      rw [hadec]
      simpa using hz)
    (by
      have : adopted.dropLast.reverse.length + 1 = adopted.length := by
        have := congrArg List.length hadec
        simp at this
        simp
        omega
      omega)
  have hwr := Fork.walkRevert_eq store prev ancHash ancInfo hanc
    reverted.dropLast.reverse fuel hd
    (by rw [← hrdec]; exact hchR)
    (by
      intro z hz
      rw [← hrdec] at hz
      exact hneR z (List.mem_reverse.mp hz))
    (by
      intro z hz
      apply hstR
      rw [hrdec]
      simpa using hz)
    (by
      have : reverted.dropLast.reverse.length + 1 = reverted.length := by
        have := congrArg List.length hrdec
        simp at this
        simp
        omega
      omega)
  have htp : (tip.1, tip.2) = tip := rfl
  have hhp : (hd.1, hd.2) = hd := rfl
  unfold Fork.rebranchEventLists
  rw [htp, hhp, hwf]
  simp only []
  rw [hwr]
  simp only [Option.some.injEq]
  rw [← hrdec, List.reverse_reverse, ← hadec, List.reverse_reverse]

/-- Witness for C6: a five-block world — ancestor hash 1 (block 10, on main),
old main-chain head hash 2 (block 20), fork blocks 30 and 40 at hashes 3 and
4 — rebranching to tip 4 emits reverted `[(2,20)]` and adopted
`[(3,30),(4,40)]`, both ancestor→tip. -/
theorem rebranch_event_order_witness :
    Fork.rebranchEventLists
      (fun a => if a = 1 then some ⟨10, true⟩ else if a = 2 then some ⟨20, true⟩
        else if a = 3 then some ⟨30, false⟩ else none)
      (fun b => if b = 40 then 3 else 1) 2 4 ⟨40, false⟩ 2 ⟨20, true⟩ =
      some ([(2, 20)], [(3, 30), (4, 40)]) :=
  rebranch_event_order
    (fun a => if a = 1 then some ⟨10, true⟩ else if a = 2 then some ⟨20, true⟩
      else if a = 3 then some ⟨30, false⟩ else none)
    (fun b => if b = 40 then 3 else 1) 1 ⟨10, true⟩
    [(3, ⟨30, false⟩), (4, ⟨40, false⟩)] [(2, ⟨20, true⟩)] 2
    (4, ⟨40, false⟩) (2, ⟨20, true⟩)
    (by decide) (by decide) (by decide) (by decide)
    (by simp [Fork.ChainedTD]) (by decide) (by decide)
    (by simp [Fork.ChainedTD]) (by decide) (by decide)
    (by decide) (by decide)

/-! # Accounts proof (`src/accounts/src/accounts_proof.rs`)

`AccountsProof::verify` and `root_hash` are embedded over the node type
`AccountsTreeNode`.  The node type, its getters (`is_branch`, `prefix`,
`get_child_hash`, `get_child_prefix`, `is_prefix_of`) and its hash live in
the `tree` module, which is outside `src/`; they are modelled from the
spec's data model (section 3: terminal/branch nodes over nibble strings,
16 child slots of `(suffix, hash)`, a branch's child for a prefix selected
by the nibble at position `|branch prefix|`, child prefix = branch prefix ++
suffix).  The Blake2b hash itself is opaque and abstracted as a parameter
`hashFn`.  A Rust panic (the source `unwrap`s the child getters) is `none`;
the early `return false` is `some false`. -/

namespace Acct

/-- An `AccountsTreeNodeChild`: suffix nibbles plus the claimed child hash. -/
structure Child (Hh : Type) where
  suffix : List Nat
  childHash : Hh
  deriving DecidableEq

/-- `AccountsTreeNode`: terminal (prefix, account) or branch (prefix, 16
child slots).  Nibble strings are lists of digits. -/
inductive TreeNode (Acc Hh : Type) where
  | terminal (pfx : List Nat) (account : Acc)
  | branch (pfx : List Nat) (children : List (Option (Child Hh)))
  deriving DecidableEq

/-- `AccountsTreeNode::prefix()`. -/
def nodePfx {Acc Hh : Type} : TreeNode Acc Hh → List Nat
  | .terminal p _ => p
  | .branch p _ => p

/-- `AccountsTreeNode::is_branch()`. -/
def isBranch {Acc Hh : Type} : TreeNode Acc Hh → Bool
  | .terminal _ _ => false
  | .branch _ _ => true

/-- `Modelled from the spec:` the child slot of a branch addressed by a
prefix — the slot index is the nibble of the prefix at position
`|branch prefix|` (`AccountsTreeNode::get_child_index`, outside `src/`). -/
def getChild {Acc Hh : Type} (n : TreeNode Acc Hh) (p : List Nat) : Option (Child Hh) :=
  match n with
  | .terminal _ _ => none
  | .branch pfx children =>
    match p[pfx.length]? with
    | none => none
    | some d => (children[d]?).bind id

/-- `Modelled from the spec:` `AccountsTreeNode::get_child_hash` (outside
`src/`): the claimed hash stored in the addressed slot. -/
def getChildHash {Acc Hh : Type} (n : TreeNode Acc Hh) (p : List Nat) : Option Hh :=
  (getChild n p).map (fun c => c.childHash)

/-- `Modelled from the spec:` `AccountsTreeNode::get_child_prefix` (outside
`src/`): branch prefix concatenated with the slot's suffix. -/
def getChildPfx {Acc Hh : Type} (n : TreeNode Acc Hh) (p : List Nat) : Option (List Nat) :=
  (getChild n p).map (fun c => nodePfx n ++ c.suffix)

/-- Outcome of a verification step: a panic (`unwrap` of a missing child),
an early `return false`, or continuation with the new stack. -/
inductive StepRes (Acc Hh : Type) where
  | panicked
  | fails
  | ok (stack : List (TreeNode Acc Hh))

/-- The inner `while let Some(child) = children.pop()` loop of `verify`
(accounts_proof.rs 29–40): pop stack entries whose prefix extends the
branch's; for each, compare the branch's claimed child hash (first) and
child prefix (second, short-circuit) against the recomputed values; push
the first non-covered entry back. -/
def checkChildren {Acc Hh : Type} [DecidableEq Hh] (hashFn : TreeNode Acc Hh → Hh)
    (node : TreeNode Acc Hh) : List (TreeNode Acc Hh) → StepRes Acc Hh
  | [] => .ok []
  | child :: rest =>
    if (nodePfx node).isPrefixOf (nodePfx child) then
      match getChildHash node (nodePfx child) with
      | none => .panicked
      | some hsh =>
        if hsh = hashFn child then
          match getChildPfx node (nodePfx child) with
          | none => .panicked
          | some cp =>
            if cp = nodePfx child then checkChildren hashFn node rest
            else .fails
        else .fails
    else .ok (child :: rest)

/-- The main loop of `verify` (accounts_proof.rs 26–43): process nodes in
order, validating and popping covered children at each branch.  The stack is
a list with its head as the top. -/
def verifyGo {Acc Hh : Type} [DecidableEq Hh] (hashFn : TreeNode Acc Hh → Hh) :
    List (TreeNode Acc Hh) → List (TreeNode Acc Hh) → StepRes Acc Hh
  | [], stack => .ok stack
  | node :: rest, stack =>
    if isBranch node then
      match checkChildren hashFn node stack with
      | .panicked => .panicked
      | .fails => .fails
      | .ok stack2 => verifyGo hashFn rest (node :: stack2)
    else verifyGo hashFn rest (node :: stack)

/-- `AccountsProof::verify` (accounts_proof.rs 24–48): run the stack machine,
then require exactly one remaining element that is a branch with the empty
prefix.  `none` is a panic, `some b` the returned boolean. -/
def verify {Acc Hh : Type} [DecidableEq Hh] (hashFn : TreeNode Acc Hh → Hh)
    (nodes : List (TreeNode Acc Hh)) : Option Bool :=
  match verifyGo hashFn nodes [] with
  | .panicked => none
  | .fails => some false
  | .ok stack =>
    match stack with
    | [n] => some (decide (nodePfx n = []) && isBranch n)
    | _ => some false

/-- `AccountsProof::root_hash` (accounts_proof.rs 64–66): the hash of the
last node of the list (a panic — `none` — on an empty list). -/
def rootHash {Acc Hh : Type} (hashFn : TreeNode Acc Hh → Hh)
    (nodes : List (TreeNode Acc Hh)) : Option Hh :=
  nodes.getLast?.map hashFn

/-- The pure stack evolution of the spec's algorithm (spec section 4.1,
step 1): the entries popped as covered by a branch, and the remainder. -/
def popCovered {Acc Hh : Type} (node : TreeNode Acc Hh) :
    List (TreeNode Acc Hh) → List (TreeNode Acc Hh) × List (TreeNode Acc Hh)
  | [] => ([], [])
  | child :: rest =>
    if (nodePfx node).isPrefixOf (nodePfx child) then
      ((child :: (popCovered node rest).1), (popCovered node rest).2)
    else ([], child :: rest)

/-- One step of the spec's stack machine: a branch pops its covered
descendants, then every node is pushed. -/
def stackStep {Acc Hh : Type} (node : TreeNode Acc Hh)
    (stack : List (TreeNode Acc Hh)) : List (TreeNode Acc Hh) :=
  if isBranch node then node :: (popCovered node stack).2 else node :: stack

/-- The spec's stack machine over the whole node list. -/
def runStack {Acc Hh : Type} :
    List (TreeNode Acc Hh) → List (TreeNode Acc Hh) → List (TreeNode Acc Hh)
  | [], stack => stack
  | node :: rest, stack => runStack rest (stackStep node stack)

/-- Claim condition (b): every listed descendant a branch covers has its
claimed child hash and child prefix matching the recomputed values. -/
def coveredOK {Acc Hh : Type} (hashFn : TreeNode Acc Hh → Hh)
    (node : TreeNode Acc Hh) (children : List (TreeNode Acc Hh)) : Prop :=
  ∀ c ∈ children, getChildHash node (nodePfx c) = some (hashFn c) ∧
    getChildPfx node (nodePfx c) = some (nodePfx c)

/-- Claim conditions (a)+(b) along the whole run: at every step, the branch's
covered descendants check out (this in particular pins down bottom-up
order: a mis-ordered list leaves a child whose claimed data cannot match). -/
def allChecks {Acc Hh : Type} (hashFn : TreeNode Acc Hh → Hh) :
    List (TreeNode Acc Hh) → List (TreeNode Acc Hh) → Prop
  | [], _ => True
  | node :: rest, stack =>
    (isBranch node = true → coveredOK hashFn node (popCovered node stack).1) ∧
    allChecks hashFn rest (stackStep node stack)

/-- The specification predicate of claim C1: all child checks pass, and
after consuming all nodes the stack holds exactly one node, a branch with
the empty prefix. -/
def specValid {Acc Hh : Type} (hashFn : TreeNode Acc Hh → Hh)
    (nodes : List (TreeNode Acc Hh)) : Prop :=
  allChecks hashFn nodes [] ∧
  ∃ root, runStack nodes [] = [root] ∧ isBranch root = true ∧ nodePfx root = []

end Acct

namespace Acct

theorem popCovered_cons_pos {Acc Hh : Type} {node child : TreeNode Acc Hh}
    {rest : List (TreeNode Acc Hh)}
    (hpf : (nodePfx node).isPrefixOf (nodePfx child) = true) :
    popCovered node (child :: rest) =
      (child :: (popCovered node rest).1, (popCovered node rest).2) := by
  simp [popCovered, hpf]

theorem popCovered_cons_neg {Acc Hh : Type} {node child : TreeNode Acc Hh}
    {rest : List (TreeNode Acc Hh)}
    (hpf : ¬(nodePfx node).isPrefixOf (nodePfx child) = true) :
    popCovered node (child :: rest) = ([], child :: rest) := by
  simp [popCovered, hpf]

theorem checkChildren_ok_iff {Acc Hh : Type} [DecidableEq Hh]
    (hashFn : TreeNode Acc Hh → Hh) (node : TreeNode Acc Hh) :
    ∀ (stack s : List (TreeNode Acc Hh)),
      checkChildren hashFn node stack = .ok s ↔
        coveredOK hashFn node (popCovered node stack).1 ∧
          s = (popCovered node stack).2 := by
  intro stack
  induction stack with
  | nil =>
    intro s
    simp [checkChildren, popCovered, coveredOK, eq_comm]
  | cons child rest ih =>
    intro s
    by_cases hpf : (nodePfx node).isPrefixOf (nodePfx child) = true
    · rw [popCovered_cons_pos hpf]
      cases hgh : getChildHash node (nodePfx child) with
      | none =>
        have hcc : checkChildren hashFn node (child :: rest) = .panicked := by
          simp [checkChildren, hpf, hgh]
        rw [hcc]
        constructor
        · intro habs; exact StepRes.noConfusion habs
        · rintro ⟨hcov, -⟩
          have hc := (hcov child (by simp)).1
          rw [hgh] at hc
          exact Option.noConfusion hc
      | some hsh =>
        by_cases hh : hsh = hashFn child
        · subst hh
          cases hgp : getChildPfx node (nodePfx child) with
          | none =>
            have hcc : checkChildren hashFn node (child :: rest) = .panicked := by
              simp [checkChildren, hpf, hgh, hgp]
            rw [hcc]
            constructor
            · intro habs; exact StepRes.noConfusion habs
            · rintro ⟨hcov, -⟩
              have hc := (hcov child (by simp)).2
              rw [hgp] at hc
              exact Option.noConfusion hc
          | some cp =>
            by_cases hcp : cp = nodePfx child
            · subst hcp
              have hcc : checkChildren hashFn node (child :: rest) =
                  checkChildren hashFn node rest := by
                simp [checkChildren, hpf, hgh, hgp]
              rw [hcc, ih s]
              constructor
              · rintro ⟨hcov, hs⟩
                refine ⟨?_, hs⟩
                intro c hc
                rcases List.mem_cons.mp hc with rfl | hc
                · exact ⟨hgh, hgp⟩
                · exact hcov c hc
              · rintro ⟨hcov, hs⟩
                exact ⟨fun c hc => hcov c (by simp [hc]), hs⟩
            · have hcc : checkChildren hashFn node (child :: rest) = .fails := by
                simp [checkChildren, hpf, hgh, hgp, hcp]
              rw [hcc]
              constructor
              · intro habs; exact StepRes.noConfusion habs
              · rintro ⟨hcov, -⟩
                have hc := (hcov child (by simp)).2
                rw [hgp] at hc
                exact (hcp (Option.some.inj hc)).elim
        · have hcc : checkChildren hashFn node (child :: rest) = .fails := by
            simp [checkChildren, hpf, hgh, hh]
          rw [hcc]
          constructor
          · intro habs; exact StepRes.noConfusion habs
          · rintro ⟨hcov, -⟩
            have hc := (hcov child (by simp)).1
            rw [hgh] at hc
            exact (hh (Option.some.inj hc)).elim
    · rw [popCovered_cons_neg hpf]
      have hcc : checkChildren hashFn node (child :: rest) = .ok (child :: rest) := by
        simp [checkChildren, hpf]
      rw [hcc]
      constructor
      · intro hok
        refine ⟨by simp [coveredOK], ?_⟩
        cases hok
        rfl
      · rintro ⟨-, rfl⟩
        rfl

theorem verifyGo_ok_iff {Acc Hh : Type} [DecidableEq Hh]
    (hashFn : TreeNode Acc Hh → Hh) :
    ∀ (nodes stack s : List (TreeNode Acc Hh)),
      verifyGo hashFn nodes stack = .ok s ↔
        allChecks hashFn nodes stack ∧ s = runStack nodes stack := by
  intro nodes
  induction nodes with
  | nil =>
    intro stack s
    simp [verifyGo, allChecks, runStack, eq_comm]
  | cons node rest ih =>
    intro stack s
    simp only [allChecks, runStack]
    by_cases hbr : isBranch node = true
    · have hss : stackStep node stack = node :: (popCovered node stack).2 := by
        simp [stackStep, hbr]
      cases hcc : checkChildren hashFn node stack with
      | panicked =>
        have hvg : verifyGo hashFn (node :: rest) stack = .panicked := by
          simp [verifyGo, hbr, hcc]
        rw [hvg]
        constructor
        · intro habs; exact StepRes.noConfusion habs
        · rintro ⟨⟨hcov, -⟩, -⟩
          have hok := (checkChildren_ok_iff hashFn node stack
            (popCovered node stack).2).mpr ⟨hcov hbr, rfl⟩
          rw [hcc] at hok
          exact StepRes.noConfusion hok
      | fails =>
        have hvg : verifyGo hashFn (node :: rest) stack = .fails := by
          simp [verifyGo, hbr, hcc]
        rw [hvg]
        constructor
        · intro habs; exact StepRes.noConfusion habs
        · rintro ⟨⟨hcov, -⟩, -⟩
          have hok := (checkChildren_ok_iff hashFn node stack
            (popCovered node stack).2).mpr ⟨hcov hbr, rfl⟩
          rw [hcc] at hok
          exact StepRes.noConfusion hok
      | ok stack2 =>
        obtain ⟨hcov, hs2⟩ := (checkChildren_ok_iff hashFn node stack stack2).mp hcc
        subst hs2
        have hvg : verifyGo hashFn (node :: rest) stack =
            verifyGo hashFn rest (node :: (popCovered node stack).2) := by
          simp [verifyGo, hbr, hcc]
        rw [hvg, ih (node :: (popCovered node stack).2) s, hss]
        simp [hcov]
    · have hss : stackStep node stack = node :: stack := by
        simp [stackStep, hbr]
      have hvg : verifyGo hashFn (node :: rest) stack =
          verifyGo hashFn rest (node :: stack) := by
        simp [verifyGo, hbr]
      rw [hvg, ih (node :: stack) s, hss]
      simp [hbr]

end Acct

/-- C1: `AccountsProof::verify` returns `true` exactly when (a)/(b) every
branch's claimed child hash and child prefix match the recomputed hash and
prefix of each listed descendant it covers along the bottom-up run
(`allChecks`), and (c) after all nodes are consumed the working stack holds
exactly one node, a branch with the empty prefix; and whenever it returns
`true`, `root_hash()` is the hash of the last node of the list. -/
theorem accountsProof_verify_iff {Acc Hh : Type} [DecidableEq Hh]
    (hashFn : Acct.TreeNode Acc Hh → Hh) (nodes : List (Acct.TreeNode Acc Hh)) :
    (Acct.verify hashFn nodes = some true ↔ Acct.specValid hashFn nodes) ∧
    (Acct.verify hashFn nodes = some true →
      ∃ lastNode, nodes.getLast? = some lastNode ∧
        Acct.rootHash hashFn nodes = some (hashFn lastNode)) := by
  have hiff : Acct.verify hashFn nodes = some true ↔ Acct.specValid hashFn nodes := by
    cases hvg : Acct.verifyGo hashFn nodes [] with
    | panicked =>
      have hv : Acct.verify hashFn nodes = none := by simp [Acct.verify, hvg]
      rw [hv]
      constructor
      · intro habs; exact Option.noConfusion habs
      · rintro ⟨hchk, -⟩
        have hok := (Acct.verifyGo_ok_iff hashFn nodes []
          (Acct.runStack nodes [])).mpr ⟨hchk, rfl⟩
        rw [hvg] at hok
        exact Acct.StepRes.noConfusion hok
    | fails =>
      have hv : Acct.verify hashFn nodes = some false := by simp [Acct.verify, hvg]
      rw [hv]
      constructor
      · intro habs
        exact absurd (Option.some.inj habs) (by simp)
      · rintro ⟨hchk, -⟩
        have hok := (Acct.verifyGo_ok_iff hashFn nodes []
          (Acct.runStack nodes [])).mpr ⟨hchk, rfl⟩
        rw [hvg] at hok
        exact Acct.StepRes.noConfusion hok
    | ok stack =>
      obtain ⟨hchk, hseq⟩ := (Acct.verifyGo_ok_iff hashFn nodes [] stack).mp hvg
      match stack, hseq with
      | [], hseq =>
        have hv : Acct.verify hashFn nodes = some false := by simp [Acct.verify, hvg]
        rw [hv]
        constructor
        · intro habs
          exact absurd (Option.some.inj habs) (by simp)
        · rintro ⟨-, root, hrun, -, -⟩
          rw [← hseq] at hrun
          exact List.noConfusion hrun
      | [n], hseq =>
        have hv : Acct.verify hashFn nodes =
            some (decide (Acct.nodePfx n = []) && Acct.isBranch n) := by
          simp [Acct.verify, hvg]
        rw [hv]
        constructor
        · intro heq
          have hb := Option.some.inj heq
          rw [Bool.and_eq_true] at hb
          refine ⟨hchk, n, hseq.symm, hb.2, of_decide_eq_true hb.1⟩
        · rintro ⟨-, root, hrun, hbr, hpfx⟩
          rw [← hseq] at hrun
          obtain ⟨rfl, -⟩ := List.cons.inj hrun
          simp [hpfx, hbr]
      | n :: m :: t, hseq =>
        have hv : Acct.verify hashFn nodes = some false := by simp [Acct.verify, hvg]
        rw [hv]
        constructor
        · intro habs
          exact absurd (Option.some.inj habs) (by simp)
        · rintro ⟨-, root, hrun, -, -⟩
          rw [← hseq] at hrun
          obtain ⟨-, habs⟩ := List.cons.inj hrun
          exact List.noConfusion habs
  refine ⟨hiff, ?_⟩
  intro hv
  have hne : nodes ≠ [] := by
    intro h
    subst h
    simp [Acct.verify, Acct.verifyGo] at hv
  obtain ⟨l, hgl⟩ := Option.isSome_iff_exists.mp (List.getLast?_isSome.mpr hne)
  exact ⟨l, hgl, by simp [Acct.rootHash, hgl]⟩

namespace Acct

/-- A simple executable encoding of nibble strings, for the demo hash. -/
def encNib (p : List Nat) : Nat :=
  p.foldl (fun a d => a * 17 + d + 1) 0

/-- A concrete executable stand-in for the opaque Blake2b node hash, used
only to exercise the theorems on a concrete proof. -/
def demoHash : TreeNode Nat Nat → Nat
  | .terminal p a => encNib p * 1000 + a * 2
  | .branch p children =>
    encNib p * 1000 + 1 + 2 * children.foldl
      (fun acc c => acc * 31 +
        (match c with
         | none => 1
         | some ch => encNib ch.suffix + 7 * ch.childHash)) 0

/-- Demo terminal node with prefix `[0,1]` and balance 25. -/
def demoT1 : TreeNode Nat Nat := .terminal [0, 1] 25

/-- Demo branch node with prefix `[0]` and `demoT1` in slot 1. -/
def demoB1 : TreeNode Nat Nat :=
  .branch [0]
    ((List.replicate 16 (none : Option (Child Nat))).set 1 (some ⟨[1], demoHash demoT1⟩))

/-- Demo root branch with the empty prefix and `demoB1` in slot 0. -/
def demoR1 : TreeNode Nat Nat :=
  .branch []
    ((List.replicate 16 (none : Option (Child Nat))).set 0 (some ⟨[0], demoHash demoB1⟩))

/-- The demo proof: bottom-up node list `[T1, B1, R1]`. -/
def demoNodes : List (TreeNode Nat Nat) := [demoT1, demoB1, demoR1]

end Acct

/-- Witness for C1 on the demo proof `[T1, B1, R1]`: it verifies, satisfies
the specification predicate, and its root hash is the hash of `R1`. -/
theorem accountsProof_verify_iff_witness :
    Acct.verify Acct.demoHash Acct.demoNodes = some true ∧
    Acct.specValid Acct.demoHash Acct.demoNodes ∧
    Acct.rootHash Acct.demoHash Acct.demoNodes = some (Acct.demoHash Acct.demoR1) := by
  have hv : Acct.verify Acct.demoHash Acct.demoNodes = some true := by decide
  refine ⟨hv, (accountsProof_verify_iff Acct.demoHash Acct.demoNodes).1.mp hv, ?_⟩
  obtain ⟨l, hl, hr⟩ := (accountsProof_verify_iff Acct.demoHash Acct.demoNodes).2 hv
  have hgl : Acct.demoNodes.getLast? = some Acct.demoR1 := rfl
  rw [hgl] at hl
  cases hl
  exact hr

/-! # User-friendly address codec (`src/keys/src/address.rs`)

`Address::to_user_friendly_address`, `Address::from_user_friendly_address`
and `Address::iban_check` over a 20-byte address modelled as a list of 20
byte values.  The base32 codec comes from the external `data_encoding` crate
(outside `src/`); with a 32-symbol alphabet and no padding it is positional:
a 20-byte (160-bit) input maps bijectively to the 32 base-32 digits of its
big-endian value, each rendered through the custom alphabet.  The IBAN
checksum digit string is modelled as the list of its decimal digit values
(the source builds the same digits as a `String`), and the 6-digit chunked
modulo loop is embedded as written (the `u32` intermediates are at most
`96·10^6 + 999999 < 2^32`, so `Nat` is exact). -/

namespace Addr

/-- The value of a digit string in base `b` (most significant first). -/
def natOfDigits (b : Nat) (ds : List Nat) : Nat :=
  ds.foldl (fun a d => a * b + d) 0

/-- The `len` base-`b` digits of `n`, most significant first (zero-padded;
truncates above `b ^ len`). -/
def natToDigitsBE (b : Nat) : Nat → Nat → List Nat
  | 0, _ => []
  | l + 1, n => natToDigitsBE b l (n / b) ++ [n % b]

theorem natOfDigits_foldl (b : Nat) :
    ∀ (ds : List Nat) (a : Nat),
      ds.foldl (fun x d => x * b + d) a = a * b ^ ds.length + natOfDigits b ds := by
  intro ds
  induction ds with
  | nil => intro a; simp [natOfDigits]
  | cons d t ih =>
    intro a
    have hnod : natOfDigits b (d :: t) = d * b ^ t.length + natOfDigits b t := by
      show (d :: t).foldl (fun x d => x * b + d) 0 = _
      rw [List.foldl_cons, ih]
      ring_nf
    rw [List.foldl_cons, ih, hnod]
    simp only [List.length_cons]
    ring

theorem natOfDigits_append (b : Nat) (xs ys : List Nat) :
    natOfDigits b (xs ++ ys) =
      natOfDigits b xs * b ^ ys.length + natOfDigits b ys := by
  show (xs ++ ys).foldl (fun x d => x * b + d) 0 = _
  rw [List.foldl_append]
  exact natOfDigits_foldl b ys _

theorem natOfDigits_lt (b : Nat) (hb : 0 < b) :
    ∀ ds : List Nat, (∀ d ∈ ds, d < b) → natOfDigits b ds < b ^ ds.length := by
  intro ds
  induction ds with
  | nil => intro _; simp [natOfDigits]
  | cons d t ih =>
    intro hd
    have hnod : natOfDigits b (d :: t) = d * b ^ t.length + natOfDigits b t := by
      show (d :: t).foldl (fun x d => x * b + d) 0 = _
      rw [List.foldl_cons, natOfDigits_foldl]
      ring_nf
    rw [hnod]
    have h1 : natOfDigits b t < b ^ t.length := ih (fun x hx => hd x (by simp [hx]))
    have h2 : d + 1 ≤ b := hd d (by simp)
    have h3 : (d + 1) * b ^ t.length ≤ b * b ^ t.length :=
      Nat.mul_le_mul_right _ h2
    calc d * b ^ t.length + natOfDigits b t
        < d * b ^ t.length + b ^ t.length := by omega
      _ = (d + 1) * b ^ t.length := by ring
      _ ≤ b * b ^ t.length := h3
      _ = b ^ (t.length + 1) := by ring
      _ = b ^ (d :: t).length := by simp

theorem natToDigitsBE_length (b : Nat) : ∀ l n, (natToDigitsBE b l n).length = l := by
  intro l
  induction l with
  | zero => intro n; rfl
  | succ l ih => intro n; simp [natToDigitsBE, ih]

theorem natToDigitsBE_lt (b : Nat) (hb : 0 < b) :
    ∀ l n, ∀ d ∈ natToDigitsBE b l n, d < b := by
  intro l
  induction l with
  | zero => intro n d hd; exact absurd hd (List.not_mem_nil d)
  | succ l ih =>
    intro n d hd
    simp only [natToDigitsBE, List.mem_append, List.mem_singleton] at hd
    rcases hd with hd | rfl
    · exact ih (n / b) d hd
    · exact Nat.mod_lt _ hb

theorem natOfDigits_natToDigitsBE (b : Nat) (hb : 0 < b) :
    ∀ l n, natOfDigits b (natToDigitsBE b l n) = n % b ^ l := by
  intro l
  induction l with
  | zero => intro n; simp [natToDigitsBE, natOfDigits, Nat.mod_one]
  | succ l ih =>
    intro n
    rw [natToDigitsBE, natOfDigits_append, ih]
    simp only [List.length_singleton, pow_one]
    have hnod : natOfDigits b [n % b] = n % b := by
      simp [natOfDigits]
    rw [hnod]
    -- (n / b % b ^ l) * b + n % b = n % b ^ (l + 1)
    have hdm1 := Nat.div_add_mod n b
    have hdm2 := Nat.div_add_mod (n / b) (b ^ l)
    have hmlt1 : n % b < b := Nat.mod_lt _ hb
    have hmlt2 : n / b % b ^ l < b ^ l := Nat.mod_lt _ (Nat.pos_pow_of_pos l hb)
    have hkey : n = b ^ (l + 1) * (n / b / b ^ l) + ((n / b % b ^ l) * b + n % b) := by
      calc n = b * (n / b) + n % b := (Nat.div_add_mod n b).symm
        _ = b * (b ^ l * (n / b / b ^ l) + n / b % b ^ l) + n % b := by rw [hdm2]
        _ = b ^ (l + 1) * (n / b / b ^ l) + ((n / b % b ^ l) * b + n % b) := by ring
    have hrem : (n / b % b ^ l) * b + n % b < b ^ (l + 1) := by
      have : (n / b % b ^ l) * b + n % b < (n / b % b ^ l) * b + b := by omega
      have h2 : (n / b % b ^ l) * b + b = (n / b % b ^ l + 1) * b := by ring
      have h3 : (n / b % b ^ l + 1) * b ≤ b ^ l * b := Nat.mul_le_mul_right _ (by omega)
      have h4 : b ^ l * b = b ^ (l + 1) := by ring
      omega
    have hfin : n % b ^ (l + 1) = n / b % b ^ l * b + n % b := by
      conv_lhs => rw [hkey]
      rw [Nat.mul_add_mod]
      exact Nat.mod_eq_of_lt hrem
    exact hfin.symm

theorem natToDigitsBE_natOfDigits (b : Nat) (hb : 0 < b) :
    ∀ ds : List Nat, (∀ d ∈ ds, d < b) →
      natToDigitsBE b ds.length (natOfDigits b ds) = ds := by
  intro ds
  induction ds using List.reverseRecOn with
  | nil => intro _; rfl
  | append_singleton xs d ih =>
    intro hd
    have hdb : d < b := hd d (by simp)
    have hnod : natOfDigits b (xs ++ [d]) = natOfDigits b xs * b + d := by
      rw [natOfDigits_append]
      simp [natOfDigits]
    have hlen : (xs ++ [d]).length = xs.length + 1 := by simp
    rw [hlen, hnod, natToDigitsBE]
    have hdiv : (natOfDigits b xs * b + d) / b = natOfDigits b xs := by
      rw [Nat.mul_comm, Nat.mul_add_div hb, Nat.div_eq_of_lt hdb, Nat.add_zero]
    have hmod : (natOfDigits b xs * b + d) % b = d := by
      rw [Nat.add_mod, Nat.mul_mod_left]
      simp [Nat.mod_eq_of_lt hdb]
    rw [hdiv, hmod, ih (fun x hx => hd x (by simp [hx]))]

end Addr

namespace Addr

/-- `Address::NIMIQ_ALPHABET`. -/
def NIMIQ_ALPHABET : List Char := "0123456789ABCDEFGHJKLMNPQRSTUVXY".toList

/-- `data_encoding` base32 encode with the Nimiq alphabet (no padding): the
32 base-32 digits of the 20-byte big-endian value, through the alphabet. -/
def base32Encode (bs : List Nat) : List Char :=
  (natToDigitsBE 32 32 (natOfDigits 256 bs)).map (fun d => NIMIQ_ALPHABET.getD d ' ')

/-- The index of a character in the Nimiq alphabet (`none` for a character
outside it, on which the source's `decode(...).unwrap()` panics). -/
def alphaIndex (c : Char) : Option Nat :=
  NIMIQ_ALPHABET.findIdx? (fun x => x == c)

/-- `data_encoding` base32 decode with the Nimiq alphabet: 32 symbols back
to 20 bytes. -/
def base32Decode (cs : List Char) : Option (List Nat) :=
  (cs.mapM alphaIndex).map (fun ds => natToDigitsBE 256 20 (natOfDigits 32 ds))

/-- The character code used by `iban_check`:
`c.to_uppercase()...next().unwrap() as u32` (ASCII uppercase). -/
def charCode (c : Char) : Nat := c.toUpper.toNat

/-- The decimal digits of `n`, most significant first (`n.to_string()`),
with enough fuel for any `u32` char code. -/
def decDigitsGo : Nat → Nat → List Nat
  | 0, _ => []
  | fuel + 1, n => if n < 10 then [n] else decDigitsGo fuel (n / 10) ++ [n % 10]

/-- `(code - 55).to_string()` as digit values. -/
def natDecimalDigits (n : Nat) : List Nat := decDigitsGo 8 n

/-- The digits one character contributes to the `num` string of
`iban_check`: a decimal digit contributes itself, any other character
contributes the decimal digits of `code - 55`. -/
def charNumDigits (c : Char) : List Nat :=
  let code := charCode c
  if 48 ≤ code ∧ code ≤ 57 then [code - 48] else natDecimalDigits (code - 55)

/-- The full digit string `num` built by `iban_check` (address.rs 70–78). -/
def ibanDigits (s : List Char) : List Nat :=
  (s.map charNumDigits).join

/-- The chunked modulo loop of `iban_check` (address.rs 79–84): take 6
digits at a time, prepend the running remainder, reduce mod 97.  The
running remainder starts as the empty string, which parses like 0. -/
def ibanGo : Nat → List Nat → Nat
  | tmp, d1 :: d2 :: d3 :: d4 :: d5 :: d6 :: rest =>
    ibanGo ((tmp * 10 ^ 6 + natOfDigits 10 [d1, d2, d3, d4, d5, d6]) % 97) rest
  | tmp, [] => tmp
  | tmp, ds => (tmp * 10 ^ ds.length + natOfDigits 10 ds) % 97

/-- `Address::iban_check` (address.rs 69–87).  (On the empty string the
source would panic parsing `""`; the model returns 0.  Every call site
passes at least 36 characters.) -/
def ibanCheck (s : List Char) : Nat := ibanGo 0 (ibanDigits s)

/-- The two check characters: `"00" + (98 - iban_check(..)).to_string()`,
keeping the last two characters — i.e. the two decimal digits of the
(two-digit) value. -/
def checkChars (v : Nat) : List Char :=
  [Char.ofNat (48 + v / 10 % 10), Char.ofNat (48 + v % 10)]

/-- The 36-character string `"NQ" + check + base32` (address.rs 56–58). -/
def friendlyCore (bs : List Nat) : List Char :=
  ['N', 'Q'] ++ checkChars (98 - ibanCheck (base32Encode bs ++ ['N', 'Q', '0', '0'])) ++
    base32Encode bs

/-- The grouping loop of `to_user_friendly_address` (address.rs 59–65):
blocks of 4 characters, single spaces between consecutive blocks. -/
def spacedGo : Nat → List Char → List Char
  | 0, _ => []
  | 1, f => f.take 4
  | k + 2, f => f.take 4 ++ ' ' :: spacedGo (k + 1) (f.drop 4)

/-- `Address::to_user_friendly_address` (address.rs 50–67): 9 blocks. -/
def toUserFriendlyAddress (bs : List Nat) : List Char :=
  spacedGo 9 (friendlyCore bs)

/-- `FriendlyAddressError`. -/
inductive FriendlyAddressError where
  | wrongCountryCode
  | wrongLength
  | invalidChecksum
  deriving DecidableEq

/-- `str::replace(friendly_addr, " ", "")`. -/
def stripSpaces (s : List Char) : List Char :=
  s.filter (fun c => c != ' ')

/-- `Address::from_user_friendly_address` (address.rs 24–48): strip spaces,
check the country code (the source's byte-slice `[0..2]` panics — `none` —
on inputs shorter than 2), the length, the IBAN checksum of the rotated
string, then base32-decode the payload (`unwrap` panics on a bad symbol). -/
def fromUserFriendlyAddress (s : List Char) :
    Option (Except FriendlyAddressError (List Nat)) :=
  let w := stripSpaces s
  if w.length < 2 then none
  else if (w.take 2).map Char.toUpper ≠ ['N', 'Q'] then some (.error .wrongCountryCode)
  else if w.length ≠ 36 then some (.error .wrongLength)
  else if ibanCheck (w.drop 4 ++ w.take 4) ≠ 1 then some (.error .invalidChecksum)
  else
    match base32Decode (w.drop 4) with
    | none => none
    | some bs => some (.ok bs)

end Addr

namespace Addr

theorem alpha_getD_ne_space : ∀ d, d < 32 → NIMIQ_ALPHABET.getD d ' ' ≠ ' ' := by
  decide

theorem alphaIndex_getD : ∀ d, d < 32 → alphaIndex (NIMIQ_ALPHABET.getD d ' ') = some d := by
  decide

theorem mapM_alphaIndex :
    ∀ ds : List Nat, (∀ d ∈ ds, d < 32) →
      (ds.map (fun d => NIMIQ_ALPHABET.getD d ' ')).mapM alphaIndex = some ds := by
  intro ds
  induction ds with
  | nil => intro _; rfl
  | cons d t ih =>
    intro hd
    rw [List.map_cons, List.mapM_cons]
    rw [alphaIndex_getD d (hd d (by simp)), ih (fun x hx => hd x (by simp [hx]))]
    rfl

theorem base32Encode_length (bs : List Nat) : (base32Encode bs).length = 32 := by
  simp [base32Encode, natToDigitsBE_length]

theorem base32Decode_encode (bs : List Nat) (hlen : bs.length = 20)
    (hb : ∀ x ∈ bs, x < 256) :
    base32Decode (base32Encode bs) = some bs := by
  unfold base32Decode base32Encode
  rw [mapM_alphaIndex _ (natToDigitsBE_lt 32 (by norm_num) 32 _)]
  rw [Option.map_some']
  rw [natOfDigits_natToDigitsBE 32 (by norm_num)]
  have hlt : natOfDigits 256 bs < 32 ^ 32 := by
    have h1 : natOfDigits 256 bs < 256 ^ bs.length := natOfDigits_lt 256 (by norm_num) bs hb
    rw [hlen] at h1
    have h2 : (256 : Nat) ^ 20 = 32 ^ 32 := by norm_num
    omega
  rw [Nat.mod_eq_of_lt hlt, ← hlen, natToDigitsBE_natOfDigits 256 (by norm_num) bs hb]

theorem ibanDigits_append (x y : List Char) :
    ibanDigits (x ++ y) = ibanDigits x ++ ibanDigits y := by
  simp [ibanDigits]

theorem ibanGo_eq :
    ∀ n (ds : List Nat), ds.length ≤ n → ds ≠ [] → ∀ tmp,
      ibanGo tmp ds = (tmp * 10 ^ ds.length + natOfDigits 10 ds) % 97 := by
  intro n
  induction n with
  | zero =>
    intro ds hle hne tmp
    match ds with
    | [] => exact absurd rfl hne
  | succ n ih =>
    intro ds hle hne tmp
    match ds with
    | d1 :: d2 :: d3 :: d4 :: d5 :: d6 :: rest =>
      show ibanGo ((tmp * 10 ^ 6 + natOfDigits 10 [d1, d2, d3, d4, d5, d6]) % 97) rest = _
      cases rest with
      | nil =>
        show (tmp * 10 ^ 6 + natOfDigits 10 [d1, d2, d3, d4, d5, d6]) % 97 = _
        rfl
      | cons r rs =>
        rw [ih (r :: rs) (by simp at hle ⊢; omega) (by simp)]
        have hsplit : natOfDigits 10 (d1 :: d2 :: d3 :: d4 :: d5 :: d6 :: r :: rs) =
            natOfDigits 10 [d1, d2, d3, d4, d5, d6] * 10 ^ (r :: rs).length +
              natOfDigits 10 (r :: rs) :=
          natOfDigits_append 10 [d1, d2, d3, d4, d5, d6] (r :: rs)
        rw [hsplit]
        have hlen6 : (d1 :: d2 :: d3 :: d4 :: d5 :: d6 :: r :: rs).length =
            (r :: rs).length + 6 := by simp
        rw [hlen6]
        have hmodeq : ((tmp * 10 ^ 6 + natOfDigits 10 [d1, d2, d3, d4, d5, d6]) % 97 *
              10 ^ (r :: rs).length + natOfDigits 10 (r :: rs)) % 97 =
            ((tmp * 10 ^ 6 + natOfDigits 10 [d1, d2, d3, d4, d5, d6]) *
              10 ^ (r :: rs).length + natOfDigits 10 (r :: rs)) % 97 :=
          ((Nat.mod_modEq _ 97).mul_right _).add_right _
        rw [hmodeq]
        congr 1
        rw [pow_add]
        ring
    | [d1] => rfl
    | [d1, d2] => rfl
    | [d1, d2, d3] => rfl
    | [d1, d2, d3, d4] => rfl
    | [d1, d2, d3, d4, d5] => rfl

theorem ibanCheck_eq (s : List Char) (hne : ibanDigits s ≠ []) :
    ibanCheck s = natOfDigits 10 (ibanDigits s) % 97 := by
  unfold ibanCheck
  rw [ibanGo_eq (ibanDigits s).length (ibanDigits s) le_rfl hne 0]
  simp

theorem charNumDigits_digitChar : ∀ v, v < 10 → charNumDigits (Char.ofNat (48 + v)) = [v] := by
  decide

theorem ibanDigits_NQ00 : ibanDigits ['N', 'Q', '0', '0'] = [2, 3, 2, 6, 0, 0] := by
  decide

theorem ibanDigits_checkChars (v : Nat) :
    ibanDigits (checkChars v) = [v / 10 % 10, v % 10] := by
  have h1 := charNumDigits_digitChar (v / 10 % 10) (Nat.mod_lt _ (by norm_num))
  have h2 := charNumDigits_digitChar (v % 10) (Nat.mod_lt _ (by norm_num))
  simp [checkChars, ibanDigits, h1, h2]

theorem checksum_ok (b32 : List Char) :
    ibanCheck (b32 ++ 'N' :: 'Q' ::
      checkChars (98 - ibanCheck (b32 ++ ['N', 'Q', '0', '0']))) = 1 := by
  have hNQ : ibanDigits ['N', 'Q'] = [2, 3, 2, 6] := by decide
  have hd00 : ibanDigits (b32 ++ ['N', 'Q', '0', '0']) =
      (ibanDigits b32 ++ [2, 3, 2, 6]) ++ [0, 0] := by
    rw [ibanDigits_append, ibanDigits_NQ00]
    simp
  set X := natOfDigits 10 (ibanDigits b32 ++ [2, 3, 2, 6]) with hX
  have hr : ibanCheck (b32 ++ ['N', 'Q', '0', '0']) = X * 100 % 97 := by
    rw [ibanCheck_eq _ (by rw [hd00]; simp), hd00, natOfDigits_append]
    have : natOfDigits 10 [0, 0] = 0 := rfl
    rw [this]
    norm_num
  set v := 98 - ibanCheck (b32 ++ ['N', 'Q', '0', '0']) with hv
  have hrlt : ibanCheck (b32 ++ ['N', 'Q', '0', '0']) < 97 := by
    rw [hr]; exact Nat.mod_lt _ (by norm_num)
  have hvle : v ≤ 98 := by omega
  have hdtw : ibanDigits (b32 ++ 'N' :: 'Q' :: checkChars v) =
      (ibanDigits b32 ++ [2, 3, 2, 6]) ++ [v / 10 % 10, v % 10] := by
    have hsh : b32 ++ 'N' :: 'Q' :: checkChars v = (b32 ++ ['N', 'Q']) ++ checkChars v := by
      simp
    rw [hsh, ibanDigits_append, ibanDigits_append, hNQ, ibanDigits_checkChars]
  rw [ibanCheck_eq _ (by rw [hdtw]; simp), hdtw, natOfDigits_append, ← hX]
  have hnod2 : natOfDigits 10 [v / 10 % 10, v % 10] = v / 10 % 10 * 10 + v % 10 := by
    simp [natOfDigits]
  rw [hnod2]
  have hvd : v / 10 % 10 * 10 + v % 10 = v := by omega
  rw [hvd]
  simp only [List.length_cons, List.length_nil]
  rw [hv, hr]
  omega

end Addr

namespace Addr

theorem stripSpaces_append (x y : List Char) :
    stripSpaces (x ++ y) = stripSpaces x ++ stripSpaces y := by
  simp [stripSpaces]

theorem stripSpaces_of_no_space {f : List Char} (h : ∀ c ∈ f, c ≠ ' ') :
    stripSpaces f = f := by
  unfold stripSpaces
  apply List.filter_eq_self.mpr
  intro c hc
  simpa using h c hc

theorem stripSpaces_spacedGo :
    ∀ k, 1 ≤ k → ∀ f : List Char, f.length = 4 * k → (∀ c ∈ f, c ≠ ' ') →
      stripSpaces (spacedGo k f) = f := by
  intro k
  induction k with
  | zero => intro h; omega
  | succ k ih =>
    intro _ f hlen hnsp
    cases k with
    | zero =>
      show stripSpaces (f.take 4) = f
      rw [List.take_of_length_le (by omega)]
      exact stripSpaces_of_no_space hnsp
    | succ k' =>
      show stripSpaces (f.take 4 ++ ' ' :: spacedGo (k' + 1) (f.drop 4)) = f
      rw [stripSpaces_append]
      have h1 : stripSpaces (f.take 4) = f.take 4 :=
        stripSpaces_of_no_space (fun c hc => hnsp c (List.mem_of_mem_take hc))
      have h2 : stripSpaces (' ' :: spacedGo (k' + 1) (f.drop 4)) =
          stripSpaces (spacedGo (k' + 1) (f.drop 4)) := by
        simp [stripSpaces]
      rw [h1, h2, ih (by omega) (f.drop 4) (by simp [hlen]; omega)
        (fun c hc => hnsp c (List.mem_of_mem_drop hc))]
      exact List.take_append_drop 4 f

theorem spacedGo_length :
    ∀ k, 1 ≤ k → ∀ f : List Char, f.length = 4 * k →
      (spacedGo k f).length = 5 * k - 1 := by
  intro k
  induction k with
  | zero => intro h; omega
  | succ k ih =>
    intro _ f hlen
    cases k with
    | zero =>
      show (f.take 4).length = 5 * 1 - 1
      simp [List.length_take]
      omega
    | succ k' =>
      show (f.take 4 ++ ' ' :: spacedGo (k' + 1) (f.drop 4)).length = _
      rw [List.length_append, List.length_cons,
        ih (by omega) (f.drop 4) (by simp [hlen]; omega)]
      simp [List.length_take]
      omega

theorem spacedGo_space_iff :
    ∀ k, 1 ≤ k → ∀ f : List Char, f.length = 4 * k → (∀ c ∈ f, c ≠ ' ') →
      ∀ i, i < 5 * k - 1 → ((spacedGo k f)[i]? = some ' ' ↔ i % 5 = 4) := by
  intro k
  induction k with
  | zero => intro h; omega
  | succ k ih =>
    intro _ f hlen hnsp i hi
    cases k with
    | zero =>
      show (f.take 4)[i]? = some ' ' ↔ i % 5 = 4
      rw [List.take_of_length_le (by omega)]
      have hi4 : i < f.length := by omega
      rw [List.getElem?_eq_getElem hi4]
      constructor
      · intro hsome
        exact absurd (Option.some.inj hsome) (hnsp _ (List.getElem_mem hi4))
      · intro h5
        omega
    | succ k' =>
      show (f.take 4 ++ ' ' :: spacedGo (k' + 1) (f.drop 4))[i]? = some ' ' ↔ i % 5 = 4
      have ht4 : (f.take 4).length = 4 := by
        simp [List.length_take]
        omega
      rcases Nat.lt_trichotomy i 4 with hlt | heq | hgt
      · rw [List.getElem?_append_left (by omega)]
        have hi4 : i < (f.take 4).length := by omega
        rw [List.getElem?_eq_getElem hi4]
        constructor
        · intro hsome
          exact absurd (Option.some.inj hsome)
            (hnsp _ (List.mem_of_mem_take (List.getElem_mem hi4)))
        · intro h5
          omega
      · subst heq
        rw [List.getElem?_append_right (by omega), ht4]
        simp
      · have h5i : 5 ≤ i := by omega
        rw [List.getElem?_append_right (by omega), ht4]
        have hidx : i - 4 = (i - 5) + 1 := by omega
        rw [hidx, List.getElem?_cons_succ]
        have hrec := ih (by omega) (f.drop 4) (by simp [hlen]; omega)
          (fun c hc => hnsp c (List.mem_of_mem_drop hc)) (i - 5) (by omega)
        rw [hrec]
        omega

end Addr

namespace Addr

theorem checkChars_no_space (v : Nat) : ∀ c ∈ checkChars v, c ≠ ' ' := by
  intro c hc
  have h1 : v / 10 % 10 < 10 := Nat.mod_lt _ (by norm_num)
  have h2 : v % 10 < 10 := Nat.mod_lt _ (by norm_num)
  have hgen : ∀ x, x < 10 → Char.ofNat (48 + x) ≠ ' ' := by decide
  rcases (by simpa [checkChars] using hc : c = Char.ofNat (48 + v / 10 % 10) ∨
      c = Char.ofNat (48 + v % 10)) with rfl | rfl
  · exact hgen _ h1
  · exact hgen _ h2

theorem base32Encode_no_space (bs : List Nat) : ∀ c ∈ base32Encode bs, c ≠ ' ' := by
  intro c hc
  simp only [base32Encode, List.mem_map] at hc
  obtain ⟨d, hd, rfl⟩ := hc
  exact alpha_getD_ne_space d (natToDigitsBE_lt 32 (by norm_num) 32 _ d hd)

theorem friendlyCore_no_space (bs : List Nat) : ∀ c ∈ friendlyCore bs, c ≠ ' ' := by
  intro c hc
  simp only [friendlyCore, List.append_assoc, List.cons_append, List.nil_append,
    List.mem_cons, List.mem_append] at hc
  rcases hc with rfl | rfl | hc | hc
  · decide
  · decide
  · exact checkChars_no_space _ c hc
  · exact base32Encode_no_space bs c hc

theorem friendlyCore_length (bs : List Nat) : (friendlyCore bs).length = 36 := by
  simp [friendlyCore, checkChars, base32Encode_length]

end Addr

/-- C4: for every 20-byte address, parsing the user-friendly rendering
returns `Ok` with the original bytes; and the rendering consists of the 36
characters `"NQ" ++ check ++ base32` (country code, two IBAN check digits,
32 base32 characters) arranged in 9 blocks of 4 characters separated by 8
single spaces (44 characters total, with a space exactly at every fifth
position). -/
theorem address_codec_roundtrip (bs : List Nat) (hlen : bs.length = 20)
    (hb : ∀ x ∈ bs, x < 256) :
    Addr.fromUserFriendlyAddress (Addr.toUserFriendlyAddress bs) =
      some (.ok bs) ∧
    Addr.stripSpaces (Addr.toUserFriendlyAddress bs) = Addr.friendlyCore bs ∧
    (Addr.friendlyCore bs).length = 36 ∧
    (Addr.toUserFriendlyAddress bs).length = 44 ∧
    (∀ i, i < 44 → ((Addr.toUserFriendlyAddress bs)[i]? = some ' ' ↔ i % 5 = 4)) := by
  have hnsp := Addr.friendlyCore_no_space bs
  have hfclen := Addr.friendlyCore_length bs
  have hstrip : Addr.stripSpaces (Addr.toUserFriendlyAddress bs) = Addr.friendlyCore bs :=
    Addr.stripSpaces_spacedGo 9 (by norm_num) _ (by rw [hfclen]) hnsp
  refine ⟨?_, hstrip, hfclen, ?_, ?_⟩
  · set v := 98 - Addr.ibanCheck (Addr.base32Encode bs ++ ['N', 'Q', '0', '0']) with hv
    have hfc5 : Addr.friendlyCore bs =
        'N' :: 'Q' :: Char.ofNat (48 + v / 10 % 10) :: Char.ofNat (48 + v % 10) ::
          Addr.base32Encode bs := by
      simp [Addr.friendlyCore, Addr.checkChars, ← hv]
    have htk2 : (Addr.friendlyCore bs).take 2 = ['N', 'Q'] := by
      rw [hfc5]
      simp
    have htk4 : (Addr.friendlyCore bs).take 4 =
        ['N', 'Q', Char.ofNat (48 + v / 10 % 10), Char.ofNat (48 + v % 10)] := by
      rw [hfc5]
      simp
    have hdp4 : (Addr.friendlyCore bs).drop 4 = Addr.base32Encode bs := by
      rw [hfc5]
      simp
    have hck := Addr.checksum_ok (Addr.base32Encode bs)
    rw [← hv] at hck
    simp only [Addr.checkChars] at hck
    simp only [Addr.fromUserFriendlyAddress]
    rw [hstrip, htk2, htk4, hdp4, hfclen]
    rw [if_neg (by norm_num), if_neg (by decide), if_neg (by norm_num),
      if_neg (by simp [hck]), Addr.base32Decode_encode bs hlen hb]
  · have h9 := Addr.spacedGo_length 9 (by norm_num) (Addr.friendlyCore bs) (by rw [hfclen])
    simpa [Addr.toUserFriendlyAddress] using h9
  · intro i hi
    have h9 := Addr.spacedGo_space_iff 9 (by norm_num) (Addr.friendlyCore bs)
      (by rw [hfclen]) hnsp i (by omega)
    simpa [Addr.toUserFriendlyAddress] using h9

/-- Witness for C4 at the all-zero address (which renders as
`"NQ07 0000 0000 0000 0000 0000 0000 0000 0000"`). -/
theorem address_codec_roundtrip_witness :
    Addr.fromUserFriendlyAddress (Addr.toUserFriendlyAddress (List.replicate 20 0)) =
      some (.ok (List.replicate 20 0)) ∧
    Addr.stripSpaces (Addr.toUserFriendlyAddress (List.replicate 20 0)) =
      Addr.friendlyCore (List.replicate 20 0) ∧
    (Addr.friendlyCore (List.replicate 20 0)).length = 36 ∧
    (Addr.toUserFriendlyAddress (List.replicate 20 0)).length = 44 ∧
    (∀ i, i < 44 →
      ((Addr.toUserFriendlyAddress (List.replicate 20 0))[i]? = some ' ' ↔ i % 5 = 4)) :=
  address_codec_roundtrip (List.replicate 20 0) (by simp)
    (fun x hx => by
      rw [List.eq_of_mem_replicate hx]
      norm_num)

/-! # Dynamic retarget (`Blockchain::get_next_target`, blockchain.rs 452–538)

The numeric pipeline of lines 502–537 over exact rationals: `BigDecimal`
values are `ℚ` (the crate is arbitrary-precision, so this is faithful up to
decimal rounding), the `f64` adjustment quotient is modelled as the exact
rational `actual_time / expected_time` (the claim's clamping and range
properties hold for any real value once clamped, so f64 rounding is
immaterial), and the policy constants (`DIFFICULTY_BLOCK_WINDOW`,
`BLOCK_TIME`, `DIFFICULTY_MAX_ADJUSTMENT_FACTOR`, `BLOCK_TARGET_MAX` — the
`policy` module is outside `src/`) are parameters.  `Target`/`TargetCompact`
conversions are outside `src/` too and are `Modelled from the spec:` the
compact form keeps the 3 most significant bytes of the target (the mantissa)
together with its byte length, truncating the rest, and `Target::from` of a
`BigDecimal` truncates to an integer.  The head/tail lookup (lines 455–500)
only supplies `head.height`, `actual_time` and `Δdifficulty`; those are the
model's inputs. -/

namespace Retarget

/-- The byte length of a target (1 for 0). -/
def byteLen (t : Nat) : Nat := Nat.log 256 t + 1

/-- `Modelled from the spec:` `TargetCompact::from(Target)` — byte length
plus the 3 most significant bytes. -/
def toCompact (t : Nat) : Nat × Nat :=
  if byteLen t ≤ 3 then (byteLen t, t)
  else (byteLen t, t / 2 ^ (8 * (byteLen t - 3)))

/-- `Modelled from the spec:` `Target::from(TargetCompact)` — the mantissa
shifted back into place. -/
def fromCompact (p : Nat × Nat) : Nat :=
  if p.1 ≤ 3 then p.2 else p.2 * 2 ^ (8 * (p.1 - 3))

/-- The round trip `Target::from(TargetCompact::from(t))` that reduces a
target to the on-wire precision. -/
def compactTrunc (t : Nat) : Nat := fromCompact (toCompact t)

/-- Lines 514–518: clamp the adjustment factor to
`[1 / MAX_ADJUSTMENT_FACTOR, MAX_ADJUSTMENT_FACTOR]` (max first, then min). -/
def clampedAdjustment (maxAdj a : ℚ) : ℚ := min maxAdj (max (1 / maxAdj) a)

/-- Lines 525–533: clamp the next target to `[1, BLOCK_TARGET_MAX]` (upper
bound first, then lower bound). -/
def clampTarget (TMAX n : ℚ) : ℚ :=
  let n1 := if TMAX < n then TMAX else n
  if n1 < 1 then 1 else n1

/-- Lines 502–537 of `get_next_target`: pre-genesis padding of the elapsed
time and difficulty delta (507–510), the clamped adjustment (512–518), the
average-target computation and multiplication (520–523), the target clamp
(525–533) and the `TargetCompact` round trip (535–537). -/
def computeNextTarget (W BT : Nat) (maxAdj TMAX : ℚ) (headHeight actualTime0 : Nat)
    (deltaDiff0 : ℚ) : Nat :=
  let pad : Nat := if headHeight ≤ W then W - headHeight + 1 else 0
  let actualTime : Nat := actualTime0 + pad * BT
  let deltaDiff : ℚ := deltaDiff0 + (pad : ℚ)
  let adjustment : ℚ :=
    clampedAdjustment maxAdj ((actualTime : ℚ) / ((W : ℚ) * (BT : ℚ)))
  let averageDifficulty : ℚ := deltaDiff / (W : ℚ)
  let averageTarget : ℚ := TMAX / averageDifficulty
  let nextTarget : ℚ := clampTarget TMAX (averageTarget * adjustment)
  compactTrunc (Int.floor nextTarget).toNat

theorem clampedAdjustment_bounds (maxAdj a : ℚ) (hM : 1 ≤ maxAdj) :
    1 / maxAdj ≤ clampedAdjustment maxAdj a ∧ clampedAdjustment maxAdj a ≤ maxAdj := by
  unfold clampedAdjustment
  constructor
  · apply le_min
    · have hpos : (0 : ℚ) < maxAdj := by linarith
      rw [div_le_iff hpos]
      nlinarith
    · exact le_max_of_le_left le_rfl
  · exact min_le_left _ _

theorem clampTarget_bounds (TMAX n : ℚ) (hT : 1 ≤ TMAX) :
    1 ≤ clampTarget TMAX n ∧ clampTarget TMAX n ≤ TMAX := by
  unfold clampTarget
  by_cases h1 : TMAX < n
  · simp only [if_pos h1]
    by_cases h2 : TMAX < 1
    · simp only [if_pos h2]
      exact ⟨le_rfl, hT⟩
    · simp only [if_neg h2]
      exact ⟨by linarith, le_rfl⟩
  · simp only [if_neg h1]
    by_cases h2 : n < 1
    · simp only [if_pos h2]
      exact ⟨le_rfl, hT⟩
    · simp only [if_neg h2]
      exact ⟨by linarith, by linarith⟩

theorem compactTrunc_eq_of_le {t : Nat} (hs : byteLen t ≤ 3) : compactTrunc t = t := by
  simp [compactTrunc, toCompact, fromCompact, hs]

theorem compactTrunc_eq_of_gt {t : Nat} (hs : ¬byteLen t ≤ 3) :
    compactTrunc t =
      t / 2 ^ (8 * (byteLen t - 3)) * 2 ^ (8 * (byteLen t - 3)) := by
  simp [compactTrunc, toCompact, fromCompact, hs]

theorem compactTrunc_le (t : Nat) : compactTrunc t ≤ t := by
  by_cases hs : byteLen t ≤ 3
  · rw [compactTrunc_eq_of_le hs]
  · rw [compactTrunc_eq_of_gt hs]
    exact Nat.div_mul_le_self t _

theorem pow_le_of_byteLen_gt {t : Nat} (hs : ¬byteLen t ≤ 3) :
    2 ^ (8 * (byteLen t - 3)) ≤ t ∧ 256 ^ (byteLen t - 1) ≤ t ∧ t < 256 ^ byteLen t := by
  have ht0 : t ≠ 0 := by
    intro h
    subst h
    simp [byteLen] at hs
  have hle : 256 ^ Nat.log 256 t ≤ t := Nat.pow_log_le_self 256 ht0
  have hlt : t < 256 ^ (Nat.log 256 t + 1) := Nat.lt_pow_succ_log_self (by norm_num) t
  have hlog : Nat.log 256 t = byteLen t - 1 := by simp [byteLen]
  have h256 : (256 : Nat) = 2 ^ 8 := by norm_num
  have hb4 : 4 ≤ byteLen t := by omega
  refine ⟨?_, ?_, ?_⟩
  · have h1 : (2 : Nat) ^ (8 * (byteLen t - 3)) ≤ 2 ^ (8 * (byteLen t - 1)) :=
      Nat.pow_le_pow_right (by norm_num) (by omega)
    have h2 : (256 : Nat) ^ (byteLen t - 1) = 2 ^ (8 * (byteLen t - 1)) := by
      rw [h256, ← pow_mul]
    rw [hlog] at hle
    omega
  · rw [hlog] at hle
    exact hle
  · rw [hlog] at hlt
    have : byteLen t - 1 + 1 = byteLen t := by omega
    rw [this] at hlt
    exact hlt

theorem compactTrunc_ge_one {t : Nat} (ht : 1 ≤ t) : 1 ≤ compactTrunc t := by
  by_cases hs : byteLen t ≤ 3
  · rw [compactTrunc_eq_of_le hs]
    exact ht
  · rw [compactTrunc_eq_of_gt hs]
    obtain ⟨hpow, -, -⟩ := pow_le_of_byteLen_gt hs
    have hm : 1 ≤ t / 2 ^ (8 * (byteLen t - 3)) :=
      (Nat.one_le_div_iff (Nat.pos_pow_of_pos _ (by norm_num))).mpr hpow
    have hp : 0 < (2 : Nat) ^ (8 * (byteLen t - 3)) :=
      Nat.pos_pow_of_pos _ (by norm_num)
    exact Nat.mul_pos hm hp

theorem compactTrunc_idem (t : Nat) : compactTrunc (compactTrunc t) = compactTrunc t := by
  by_cases hs : byteLen t ≤ 3
  · rw [compactTrunc_eq_of_le hs, compactTrunc_eq_of_le hs]
  · obtain ⟨hpow, hge, hlt⟩ := pow_le_of_byteLen_gt hs
    have h256 : (256 : Nat) = 2 ^ 8 := by norm_num
    have hkle : 8 * (byteLen t - 3) ≤ 8 * (byteLen t - 1) := by omega
    have hmge : 2 ^ (8 * (byteLen t - 1) - 8 * (byteLen t - 3)) ≤
        t / 2 ^ (8 * (byteLen t - 3)) := by
      have h1 : (256 : Nat) ^ (byteLen t - 1) / 2 ^ (8 * (byteLen t - 3)) ≤
          t / 2 ^ (8 * (byteLen t - 3)) := Nat.div_le_div_right hge
      have h2 : (256 : Nat) ^ (byteLen t - 1) = 2 ^ (8 * (byteLen t - 1)) := by
        rw [h256, ← pow_mul]
      rw [h2, Nat.pow_div hkle (by norm_num)] at h1
      exact h1
    have hr_ge : 256 ^ (byteLen t - 1) ≤
        t / 2 ^ (8 * (byteLen t - 3)) * 2 ^ (8 * (byteLen t - 3)) := by
      have h2 : (256 : Nat) ^ (byteLen t - 1) = 2 ^ (8 * (byteLen t - 1)) := by
        rw [h256, ← pow_mul]
      have h3 : (2 : Nat) ^ (8 * (byteLen t - 1)) =
          2 ^ (8 * (byteLen t - 1) - 8 * (byteLen t - 3)) * 2 ^ (8 * (byteLen t - 3)) := by
        rw [← pow_add]
        congr 1
        omega
      rw [h2, h3]
      exact Nat.mul_le_mul_right _ hmge
    have hr_le : t / 2 ^ (8 * (byteLen t - 3)) * 2 ^ (8 * (byteLen t - 3)) ≤ t :=
      Nat.div_mul_le_self t _
    have hlogr : Nat.log 256 (t / 2 ^ (8 * (byteLen t - 3)) * 2 ^ (8 * (byteLen t - 3))) =
        byteLen t - 1 := by
      apply Nat.log_eq_of_pow_le_of_lt_pow hr_ge
      have : byteLen t - 1 + 1 = byteLen t := by omega
      rw [this]
      omega
    have hblr : byteLen (t / 2 ^ (8 * (byteLen t - 3)) * 2 ^ (8 * (byteLen t - 3))) =
        byteLen t := by
      show Nat.log 256 _ + 1 = byteLen t
      rw [hlogr]
      omega
    rw [compactTrunc_eq_of_gt hs, compactTrunc_eq_of_gt (by rw [hblr]; exact hs), hblr,
      Nat.mul_div_cancel _ (Nat.pos_pow_of_pos _ (by norm_num))]

end Retarget

namespace Retarget

theorem clampFloorTrunc_props (TMAX q : ℚ) (hT : 1 ≤ TMAX) :
    1 ≤ compactTrunc (Int.floor (clampTarget TMAX q)).toNat ∧
    ((compactTrunc (Int.floor (clampTarget TMAX q)).toNat : ℚ) ≤ TMAX) ∧
    compactTrunc (compactTrunc (Int.floor (clampTarget TMAX q)).toNat) =
      compactTrunc (Int.floor (clampTarget TMAX q)).toNat := by
  obtain ⟨h1, h2⟩ := clampTarget_bounds TMAX q hT
  have hf1 : (1 : ℤ) ≤ Int.floor (clampTarget TMAX q) := by
    rw [Int.le_floor]
    exact_mod_cast h1
  have htge : 1 ≤ (Int.floor (clampTarget TMAX q)).toNat := by omega
  have hcast : (((Int.floor (clampTarget TMAX q)).toNat : ℕ) : ℚ) =
      ((Int.floor (clampTarget TMAX q) : ℤ) : ℚ) := by
    have hnn : 0 ≤ Int.floor (clampTarget TMAX q) := by omega
    rw [← Int.toNat_of_nonneg hnn]
    push_cast
    rw [Int.toNat_of_nonneg hnn]
  have htle : (((Int.floor (clampTarget TMAX q)).toNat : ℕ) : ℚ) ≤ TMAX := by
    rw [hcast]
    have := Int.floor_le (clampTarget TMAX q)
    linarith
  refine ⟨compactTrunc_ge_one htge, ?_, compactTrunc_idem _⟩
  have hle := compactTrunc_le (Int.floor (clampTarget TMAX q)).toNat
  have : ((compactTrunc (Int.floor (clampTarget TMAX q)).toNat : ℕ) : ℚ) ≤
      (((Int.floor (clampTarget TMAX q)).toNat : ℕ) : ℚ) := by
    exact_mod_cast hle
  linarith

end Retarget

/-- C3: `get_next_target` clamps the adjustment factor into
`[1/DIFFICULTY_MAX_ADJUSTMENT_FACTOR, DIFFICULTY_MAX_ADJUSTMENT_FACTOR]`
before it is multiplied with the average target, clamps the resulting next
target into `[1, BLOCK_TARGET_MAX]`, and returns the value after a round
trip through `TargetCompact`; hence the returned target lies in
`[1, BLOCK_TARGET_MAX]` and converting it to `TargetCompact` and back yields
the same target. -/
theorem next_target_props (W BT : Nat) (maxAdj TMAX : ℚ) (headHeight actualTime0 : Nat)
    (deltaDiff0 : ℚ) (hW : 0 < W) (hBT : 0 < BT) (hM : 1 ≤ maxAdj) (hT : 1 ≤ TMAX)
    (hD : 0 < deltaDiff0) :
    (∀ a : ℚ, 1 / maxAdj ≤ Retarget.clampedAdjustment maxAdj a ∧
      Retarget.clampedAdjustment maxAdj a ≤ maxAdj) ∧
    1 ≤ Retarget.computeNextTarget W BT maxAdj TMAX headHeight actualTime0 deltaDiff0 ∧
    ((Retarget.computeNextTarget W BT maxAdj TMAX headHeight actualTime0 deltaDiff0 : ℚ)
      ≤ TMAX) ∧
    Retarget.compactTrunc
        (Retarget.computeNextTarget W BT maxAdj TMAX headHeight actualTime0 deltaDiff0) =
      Retarget.computeNextTarget W BT maxAdj TMAX headHeight actualTime0 deltaDiff0 := by
  refine ⟨fun a => Retarget.clampedAdjustment_bounds maxAdj a hM, ?_, ?_, ?_⟩
  · exact (Retarget.clampFloorTrunc_props TMAX _ hT).1
  · exact (Retarget.clampFloorTrunc_props TMAX _ hT).2.1
  · exact (Retarget.clampFloorTrunc_props TMAX _ hT).2.2

/-- Witness for C3 with window 10, block time 60, adjustment bound 10,
`BLOCK_TARGET_MAX = 65536`, a head at height 5 and difficulty delta 1. -/
theorem next_target_props_witness :
    (∀ a : ℚ, 1 / 10 ≤ Retarget.clampedAdjustment 10 a ∧
      Retarget.clampedAdjustment 10 a ≤ 10) ∧
    1 ≤ Retarget.computeNextTarget 10 60 10 65536 5 0 1 ∧
    ((Retarget.computeNextTarget 10 60 10 65536 5 0 1 : ℚ) ≤ 65536) ∧
    Retarget.compactTrunc (Retarget.computeNextTarget 10 60 10 65536 5 0 1) =
      Retarget.computeNextTarget 10 60 10 65536 5 0 1 :=
  next_target_props 10 60 10 65536 5 0 1 (by norm_num) (by norm_num) (by norm_num)
    (by norm_num) (by norm_num)
